import Mathlib

/-!
Verification of the dynamic memory allocator in `src/mm.c` (CS:APP malloc-lab
style allocator with boundary tags and a single explicit free list).

The heap is modelled at block granularity: a `HeapState` holds the list of
blocks in physical order (the allocated prologue sentinel of size 8 first; the
zero-size allocated epilogue is implicit at the end), the explicit free list
as the list of payload addresses in list order (`firstlist` traversal order),
and the break limit of the memory system (`mem_sbrk` succeeds exactly while
the heap stays within this limit).

Payload addresses follow the C layout: 4 bytes of padding, the prologue
header at 4, the prologue payload at 8, and each subsequent block's payload
at the previous payload address plus the previous block's size.  All size
arithmetic performed on C `uint32_t` values is taken modulo 2^32 (`u32`,
`u32sub`), exactly where the C code computes on 32-bit words.
-/

namespace MM

/-- Modulus of C `uint32_t` arithmetic. -/
abbrev U32 : Nat := 4294967296

/-- Wrap a natural number to `uint32_t` range, as C unsigned arithmetic does. -/
def u32 (n : Nat) : Nat := n % U32

/-- C `uint32_t` subtraction `a - b` (wraps modulo 2^32). -/
def u32sub (a b : Nat) : Nat := (a + U32 - b) % U32

/-- One boundary-tagged block: its total size in bytes (header word plus
payload plus footer word) and its allocated flag, as packed in the
header/footer tags by `PACK`/`GET_SIZE`/`GET_ALLOC` in `mm.c`. -/
structure Block where
  size : Nat
  alloc : Bool
deriving Repr, DecidableEq

/-- The allocator state: blocks in physical order (prologue first, epilogue
implicit), the explicit free list (`firstlist`, front = most recent insert)
as payload addresses, and the memory system break limit. -/
structure HeapState where
  blocks : List Block
  fl : List Nat
  brkLimit : Nat
deriving Repr, DecidableEq

/-- Total bytes occupied by a list of blocks. -/
def sumSizes (l : List Block) : Nat := (l.map Block.size).sum

/-- Bytes used by the heap: 4 padding bytes, 4 bytes of prologue header,
all block bodies, and the 4-byte epilogue header; equals `8 + sumSizes`
in payload coordinates (the first payload is at address 8). -/
def heapSize (s : HeapState) : Nat := 8 + sumSizes s.blocks

/-- Pair every block with its payload address, starting from address `a`. -/
def withAddrs : Nat → List Block → List (Nat × Block)
  | _, [] => []
  | a, b :: bs => (a, b) :: withAddrs (a + b.size) bs

/-- All blocks of the heap with their payload addresses (prologue at 8). -/
def addrBlocks (s : HeapState) : List (Nat × Block) := withAddrs 8 s.blocks

/-- Locate the block whose payload address is `a`, walking from address `a0`;
returns the blocks before it, the block, and the blocks after it. -/
def findBlockGo : Nat → Nat → List Block → Option (List Block × Block × List Block)
  | _, _, [] => none
  | a0, a, b :: bs =>
    if a0 = a then some ([], b, bs)
    else
      match findBlockGo (a0 + b.size) a bs with
      | some (pre, c, post) => some (b :: pre, c, post)
      | none => none

/-- Locate the block at payload address `a` in the heap. -/
def findBlock (s : HeapState) (a : Nat) : Option (List Block × Block × List Block) :=
  findBlockGo 8 a s.blocks

/-- Model of `GET_SIZE(HDRP(bp))`: the size field of the block at `bp`
(0 when no block starts there, matching the epilogue tag). -/
def sizeAt (s : HeapState) (a : Nat) : Nat :=
  match findBlock s a with
  | some (_, b, _) => b.size
  | none => 0

/-- Model of `GET_ALLOC(HDRP(bp))`: the allocated flag of the block at `bp`
(true when no block starts there, matching the allocated epilogue tag). -/
def allocAt (s : HeapState) (a : Nat) : Bool :=
  match findBlock s a with
  | some (_, b, _) => b.alloc
  | none => true

/-- Replace the block at payload address `a` (no change if absent). -/
def replaceAt (l : List Block) (a : Nat) (nb : Block) : List Block :=
  match findBlockGo 8 a l with
  | some (pre, _, post) => pre ++ nb :: post
  | none => l

/-- Model of `listInsert` (mm.c lines 401-421): push a block onto the front of
the free list; defensively a no-op if the block is marked allocated. -/
def listInsert (s : HeapState) (bp : Nat) : HeapState :=
  if allocAt s bp then s else { s with fl := bp :: s.fl }

/-- Model of `listRemove` (mm.c lines 424-451): if the block has size 0, mark
it allocated and leave the links alone (the defensive degenerate case);
otherwise unlink it from the doubly linked free list, which on a well-formed
(duplicate-free) list is erasure of its address. -/
def listRemove (s : HeapState) (bp : Nat) : HeapState :=
  if sizeAt s bp = 0 then
    { s with blocks := replaceAt s.blocks bp ⟨0, true⟩ }
  else { s with fl := s.fl.erase bp }

/-- Allocated flag of the block after the current one: the head of `post`,
or the allocated epilogue when `post` is empty (model of
`GET_ALLOC(HDRP(NEXT_BLKP(bp)))`). -/
def headAlloc (post : List Block) : Bool :=
  match post.head? with
  | none => true
  | some nb => nb.alloc

/-- Size field of the block after the current one: the head of `post`, or
the zero-size epilogue when `post` is empty (model of
`GET_SIZE(HDRP(NEXT_BLKP(ptr)))`). -/
def headSize (post : List Block) : Nat :=
  match post.head? with
  | none => 0
  | some nb => nb.size

/-- Model of `coalesce` (mm.c lines 233-276).  The physical predecessor's
allocated flag is read from its footer and the successor's from its header;
in this block model header and footer of a block always agree (the code
rewrites both together).  An empty `post` means the successor is the
allocated epilogue.  Returns the new state and the returned block address.
Case 4 reads the successor size from `FTRP(NEXT_BLKP(bp))`, which equals the
successor's header size here.  The degenerate zero-size neighbour branch of
`listRemove` (excluded by the size invariant) is subsumed by the wholesale
block-list rewrite. -/
def coalesce (s : HeapState) (bp : Nat) : HeapState × Nat :=
  match findBlock s bp with
  | none => (s, bp)
  | some (pre, b, post) =>
    match pre.getLast? with
    | none => (s, bp)
    | some prevB =>
      let prev_alloc := prevB.alloc
      let next_alloc := headAlloc post
      if prev_alloc && next_alloc then
        (listInsert s bp, bp)
      else if prev_alloc && !next_alloc then
        match post with
        | [] => (s, bp)
        | nb :: rest =>
          let size := u32 (b.size + nb.size)
          let s1 := listRemove s (bp + b.size)
          let s2 := { s1 with blocks := pre ++ ⟨size, false⟩ :: rest }
          (listInsert s2 bp, bp)
      else if !prev_alloc && next_alloc then
        let size := u32 (b.size + prevB.size)
        ({ s with blocks := pre.dropLast ++ ⟨size, false⟩ :: post }, bp - prevB.size)
      else
        match post with
        | [] => (s, bp)
        | nb :: rest =>
          let size := u32 (b.size + prevB.size + nb.size)
          let s1 := listRemove s (bp + b.size)
          let s2 := listRemove s1 (bp - prevB.size)
          let s3 := listInsert { s2 with blocks := pre.dropLast ++ ⟨size, false⟩ :: rest }
            (bp - prevB.size)
          (s3, bp - prevB.size)

/-- Model of `mm_free` (mm.c lines 217-228): null is a no-op; otherwise the
block's header and footer are rewritten with its size and a clear allocated
bit, and the block is handed to `coalesce`. -/
def mm_free (s : HeapState) (bp : Nat) : HeapState :=
  if bp = 0 then s
  else
    match findBlock s bp with
    | none => s
    | some (pre, b, post) =>
      (coalesce { s with blocks := pre ++ ⟨b.size, false⟩ :: post } bp).1

/-- Byte count requested by `extend_heap` (mm.c line 174): the word count is
rounded up to an even number of words and multiplied by `WSIZE`, on
`uint32_t`. -/
def extendBytes (words : Nat) : Nat :=
  u32 (if words % 2 = 1 then (words + 1) * 4 else words * 4)

/-- Model of `extend_heap` (mm.c lines 170-183): request `extendBytes words`
bytes from `mem_sbrk` (which fails exactly when the heap would exceed
`brkLimit`), lay out the new free block over the old epilogue (its payload
address is the old `heapSize`), write a fresh epilogue, and coalesce the new
block with the old tail. -/
def extend_heap (s : HeapState) (words : Nat) : Option (HeapState × Nat) :=
  let size := extendBytes words
  if heapSize s + size ≤ s.brkLimit then
    let bp := heapSize s
    some (coalesce { s with blocks := s.blocks ++ [⟨size, false⟩] } bp)
  else none

/-- Loop of `find_fit` (mm.c lines 190-212): scan the free list in order;
return the first exact-size match immediately; otherwise track the smallest
block whose size is strictly larger than `asize` and strictly below the
sentinel `2147483648`; at the end return the tracked block, or none when the
tracker still holds the sentinel. -/
def find_fitGo (s : HeapState) (asize : Nat) :
    List Nat → Option Nat → Nat → Option Nat
  | [], best, best_size => if best_size = 2147483648 then none else best
  | bp :: rest, best, best_size =>
    if sizeAt s bp = asize then some bp
    else if sizeAt s bp < best_size ∧ asize < sizeAt s bp then
      find_fitGo s asize rest (some bp) (sizeAt s bp)
    else find_fitGo s asize rest best best_size

/-- Model of `find_fit` (mm.c lines 190-212). -/
def find_fit (s : HeapState) (asize : Nat) : Option Nat :=
  find_fitGo s asize s.fl none 2147483648

/-- Model of `place` (mm.c lines 330-351): if the leftover `csize - asize`
(computed on `uint32_t`) is at least 24, mark the front `asize` bytes
allocated, remove the block from the free list, and insert the free
remainder; otherwise mark the whole block allocated and remove it.  The
header is rewritten before `listRemove` runs, exactly as in the source. -/
def place (s : HeapState) (bp asize : Nat) : HeapState :=
  let csize := sizeAt s bp
  if 24 ≤ u32sub csize asize then
    match findBlock s bp with
    | none => s
    | some (pre, _, post) =>
      let s1 := { s with blocks := pre ++ ⟨asize, true⟩ :: ⟨u32sub csize asize, false⟩ :: post }
      let s2 := listRemove s1 bp
      listInsert s2 (bp + asize)
  else
    match findBlock s bp with
    | none => s
    | some (pre, _, post) =>
      listRemove { s with blocks := pre ++ ⟨csize, true⟩ :: post } bp

/-- Size normalization of `mm_malloc` (mm.c lines 287-307): 0 is handled by
the caller; 448 becomes 512 and 112 becomes 128 (tuned buckets); sizes up to
`DSIZE` become 16; other non-multiples of 8 are rounded up to the next
multiple of 8 on `uint32_t` (so the computation wraps for huge sizes). -/
def normSize (size : Nat) : Nat :=
  if size = 448 then 512
  else if size = 112 then 128
  else if size ≤ 8 then 16
  else if size % 8 ≠ 0 then u32 ((size / 8 + 1) * 8)
  else size

/-- The adjusted block size `asize = size + DSIZE` computed by `mm_malloc`
after normalization, on `uint32_t`. -/
def asizeOf (size : Nat) : Nat := u32 (normSize size + 8)

/-- Reinterpret a `uint32_t` value as a C `int`, as the implicit conversion
at the call `MAX(asize, CHUNKSIZE)` does. -/
def toInt32 (n : Nat) : Int :=
  if n < 2147483648 then (n : Int) else (n : Int) - 4294967296

/-- The extension request `MAX(asize, CHUNKSIZE)` of `mm_malloc` (line 315),
computed with `int` arguments as in the source `MAX`. -/
def extendSizeOf (asize : Nat) : Nat := (max (toInt32 asize) (toInt32 4096)).toNat

/-- Model of `mm_malloc` (mm.c lines 281-321): zero size returns null;
otherwise normalize, search the free list, place on a hit; on a miss extend
the heap by `MAX(asize, CHUNKSIZE)` bytes and place in the extension; return
null exactly when the extension fails. -/
def mm_malloc (s : HeapState) (size : Nat) : HeapState × Option Nat :=
  if size = 0 then (s, none)
  else
    let asize := asizeOf size
    match find_fit s asize with
    | some bp => (place s bp asize, some bp)
    | none =>
      match extend_heap s (extendSizeOf asize / 4) with
      | none => (s, none)
      | some (s1, bp) => (place s1 bp asize, some bp)

/-- Model of `mm_realloc` (mm.c lines 357-398) at block granularity.  The
byte-copy of the relocation fallback is modelled separately (`memcpy`,
`reallocCopySize`, `freeOldBytes`).  A `none` result models the fatal
`exit(1)` taken when the fallback `mm_malloc` fails; a junk pointer (no
block at `ptr`) is undefined behaviour in C and maps to a `none` result
with the state unchanged. -/
def mm_realloc (s : HeapState) (ptr size : Nat) : HeapState × Option Nat :=
  match findBlock s ptr with
  | none => (s, none)
  | some (pre, b, post) =>
    let next_alloc := headAlloc post
    let next_size := headSize post
    let curr_size := b.size
    let combine_size := u32 (curr_size + next_size)
    let asize := u32 (size + 8)
    if asize < curr_size then (s, some ptr)
    else if next_alloc = false ∧ asize ≤ combine_size then
      let s1 := listRemove s (ptr + curr_size)
      ({ s1 with blocks := pre ++ ⟨combine_size, true⟩ :: post.tail }, some ptr)
    else
      match mm_malloc s size with
      | (s1, none) => (s1, none)
      | (s1, some newp) => (mm_free s1 ptr, some newp)

/-- Model of `mm_init` (mm.c lines 148-165): reset the free list, reserve 16
bytes for padding, prologue and epilogue, then extend by `CHUNKSIZE/WSIZE`
words; fail if either reservation fails. -/
def mm_init (brkLimit : Nat) : Option HeapState :=
  if 16 ≤ brkLimit then
    match extend_heap ⟨[⟨8, true⟩], [], brkLimit⟩ 1024 with
    | some (s1, _) => some s1
    | none => none
  else none

/-- The no-adjacent-free relation between two physically consecutive blocks:
at least one of them is allocated. -/
def adjOk (x y : Block) : Prop := x.alloc = true ∨ y.alloc = true

/-- No two physically adjacent blocks are both free.  The prologue and
epilogue sentinels are permanently allocated, so only consecutive pairs
inside the block list matter. -/
def noAdjFree (l : List Block) : Prop := List.Chain' adjOk l

instance : DecidableRel adjOk := fun x y =>
  inferInstanceAs (Decidable (x.alloc = true ∨ y.alloc = true))

instance (l : List Block) : Decidable (noAdjFree l) :=
  inferInstanceAs (Decidable (List.Chain' adjOk l))

/-- Well-formedness of an allocator state: the prologue sentinel leads the
block list; block sizes are positive multiples of 8; the heap fits under the
break limit, which itself fits in a 32-bit address space; a block address is
on the free list exactly when the block is free; the free list only holds
block addresses and has no duplicates; and no two adjacent blocks are free. -/
structure Inv (s : HeapState) : Prop where
  prologue : s.blocks.head? = some ⟨8, true⟩
  sizesPos : ∀ b ∈ s.blocks, 0 < b.size ∧ b.size % 8 = 0
  heapBound : heapSize s ≤ s.brkLimit ∧ s.brkLimit < U32
  memIff : ∀ p ∈ addrBlocks s, (p.1 ∈ s.fl ↔ p.2.alloc = false)
  flSub : ∀ a ∈ s.fl, a ∈ (addrBlocks s).map Prod.fst
  flNodup : s.fl.Nodup
  noAdj : noAdjFree s.blocks

/-- A free-list entry is a useful non-exact candidate when its size strictly
exceeds the request and stays below the best-size sentinel. -/
def candidate (s : HeapState) (asize x : Nat) : Prop :=
  asize < sizeAt s x ∧ sizeAt s x < 2147483648

/-- The states reachable through the public allocator interface, starting
from a successful `mm_init` under a 32-bit break limit.  Allocation and
reallocation requests are restricted to sizes whose normalized block size
stays below 2^31 (the sizes for which the block-granularity model is exact;
larger requests overflow the 32-bit size arithmetic, see the C1 analysis),
and `mm_free`/`mm_realloc` are applied to valid allocated user blocks or
null, matching the undefined-behaviour contract of the C code. -/
inductive Reachable : HeapState → Prop where
  | init : ∀ bl s, bl < U32 → mm_init bl = some s → Reachable s
  | malloc : ∀ s size, Reachable s → normSize size + 8 < 2147483648 →
      Reachable (mm_malloc s size).1
  | free : ∀ s a pre b post, Reachable s → findBlock s a = some (pre, b, post) →
      b.alloc = true → pre ≠ [] → Reachable (mm_free s a)
  | freeNull : ∀ s, Reachable s → Reachable (mm_free s 0)
  | realloc : ∀ s a size pre b post, Reachable s →
      findBlock s a = some (pre, b, post) → b.alloc = true → pre ≠ [] →
      normSize size + 8 < 2147483648 → Reachable (mm_realloc s a size).1


/-! ### Event trace of `place`, and the byte-level model of the realloc copy -/

/-- Model of `PACK` (mm.c lines 72-74). -/
def PACK (size alloc : Nat) : Nat := size ||| (alloc &&& 1)

/-- The primitive operations `place` interleaves: header/footer stores and
free-list removal/insertion. -/
inductive PlaceEvent where
  | putHdr (addr val : Nat)
  | putFtr (addr val : Nat)
  | listRem (addr : Nat)
  | listIns (addr : Nat)
deriving Repr, DecidableEq, BEq

/-- The sequence of primitive operations `place` performs (mm.c lines
330-351) on a free block at `bp` of size `csize` for a request of `asize`
bytes, in source order: in the split case the header and footer are
rewritten with the allocated size first (lines 336-337), `listRemove` runs
afterwards (line 338), and then the remainder is written and inserted
(lines 340-343); in the no-split case the whole block is marked allocated
and then removed (lines 347-349).  Footer addresses follow `FTRP`, which
reads the size just stored in the header. -/
def placeEvents (bp csize asize : Nat) : List PlaceEvent :=
  if 24 ≤ u32sub csize asize then
    [.putHdr (bp - 4) (PACK asize 1), .putFtr (bp + asize - 8) (PACK asize 1),
      .listRem bp,
      .putHdr (bp + asize - 4) (PACK (u32sub csize asize) 0),
      .putFtr (bp + csize - 8) (PACK (u32sub csize asize) 0),
      .listIns (bp + asize)]
  else
    [.putHdr (bp - 4) (PACK csize 1), .putFtr (bp + csize - 8) (PACK csize 1),
      .listRem bp]

/-- Byte-level model of `memcpy(dst, src, n)` for non-overlapping regions:
bytes `dst ≤ i < dst + n` receive the source bytes, everything else is
untouched. -/
def memcpy (mem : Nat → Nat) (dst src n : Nat) : Nat → Nat :=
  fun i => if dst ≤ i ∧ i < dst + n then mem (src + (i - dst)) else mem i

/-- The byte count copied by the relocation fallback of `mm_realloc` (mm.c
lines 390-394): `copySize` starts as the old block's total size
`GET_SIZE(HDRP(ptr))` and is reduced to `size` when `size < copySize`. -/
def reallocCopySize (size curr_size : Nat) : Nat :=
  if size < curr_size then size else curr_size

/-- Byte-level effect of a 4-byte word store at address `a`. -/
def writeWord (mem : Nat → Nat) (a v : Nat) : Nat → Nat :=
  fun i => if a ≤ i ∧ i < a + 4 then v else mem i

/-- Byte-level writes performed by `mm_free(ptr)` after the fallback copy,
when the freed block's neighbours are allocated: the header store at
`HDRP(ptr)`, the footer store at `FTRP(ptr)`, and the two link words
`listInsert` stores at the start of the freed payload of the (possibly
merged) block beginning at `m`; the stored word values are abstract
parameters. -/
def freeOldBytes (mem : Nat → Nat) (ptr cs m hv fv pv nv : Nat) : Nat → Nat :=
  writeWord (writeWord (writeWord (writeWord mem (ptr - 4) hv) (ptr + cs - 8) fv) m pv)
    (m + 4) nv

/-! ### Concrete states used by witnesses and counterexamples -/

/-- The heap produced by `mm_init` under a 100000-byte break limit: the
prologue and one free 4096-byte block at payload address 16. -/
def iS : HeapState := ⟨[⟨8, true⟩, ⟨4096, false⟩], [16], 100000⟩

/-- The heap after `mm_malloc 16` twice from `iS`: two allocated 24-byte
blocks at 16 and 40 and the free remainder at 64. -/
def s5 : HeapState := ⟨[⟨8, true⟩, ⟨24, true⟩, ⟨24, true⟩, ⟨4048, false⟩], [64], 100000⟩

/-- A heap in which the block at 40 has just been marked free (not yet
indexed), its physical predecessor at 16 is free and indexed, and its
successor at 64 is allocated: the input situation of coalescing case 3. -/
def s7 : HeapState := ⟨[⟨8, true⟩, ⟨24, false⟩, ⟨24, false⟩, ⟨4048, true⟩], [16], 100000⟩

/-- A heap whose only free block is larger than 2^31 (obtainable in
principle by coalescing two 2^30-sized frees): the fit selector's best-fit
sentinel can never select it. -/
def cex4 : HeapState := ⟨[⟨8, true⟩, ⟨2147483648, false⟩], [16], 4294967295⟩

/-- A heap whose only free block (size 2^31 + 8) exceeds every request yet
sits above the sentinel. -/
def s10 : HeapState := ⟨[⟨8, true⟩, ⟨24, true⟩, ⟨2147483656, false⟩], [40], 4294967295⟩

/-- The heap `mm_malloc s5 32` produces: the free tail at 64 is split into
an allocated 40-byte block and a free remainder at 104. -/
def s15 : HeapState :=
  ⟨[⟨8, true⟩, ⟨24, true⟩, ⟨24, true⟩, ⟨40, true⟩, ⟨4008, false⟩], [104], 100000⟩

/-! ### Basic facts about addresses and block decompositions -/

theorem sumSizes_nil : sumSizes [] = 0 := rfl

theorem sumSizes_cons (b : Block) (l : List Block) :
    sumSizes (b :: l) = b.size + sumSizes l := by
  simp [sumSizes]

theorem sumSizes_append (l1 l2 : List Block) :
    sumSizes (l1 ++ l2) = sumSizes l1 + sumSizes l2 := by
  simp [sumSizes]

theorem withAddrs_append (a : Nat) (l1 l2 : List Block) :
    withAddrs a (l1 ++ l2) = withAddrs a l1 ++ withAddrs (a + sumSizes l1) l2 := by
  induction l1 generalizing a with
  | nil => simp [withAddrs, sumSizes_nil]
  | cons b bs ih =>
    simp [withAddrs, ih, sumSizes_cons, Nat.add_assoc]

theorem mem_withAddrs_bounds {a x : Nat} {b : Block} {l : List Block} :
    (x, b) ∈ withAddrs a l → a ≤ x ∧ x + b.size ≤ a + sumSizes l := by
  induction l generalizing a with
  | nil => simp [withAddrs]
  | cons c cs ih =>
    intro h
    simp only [withAddrs, List.mem_cons] at h
    rcases h with h | h
    · cases h
      rw [sumSizes_cons]
      omega
    · have := ih h
      rw [sumSizes_cons]
      omega

theorem mem_withAddrs_iff {a x : Nat} {b : Block} {l : List Block} :
    (x, b) ∈ withAddrs a l ↔ ∃ pre post, l = pre ++ b :: post ∧ x = a + sumSizes pre := by
  induction l generalizing a with
  | nil => simp [withAddrs]
  | cons c cs ih =>
    constructor
    · intro h
      simp only [withAddrs, List.mem_cons] at h
      rcases h with h | h
      · cases h
        exact ⟨[], cs, rfl, by simp [sumSizes_nil]⟩
      · obtain ⟨pre, post, hl, hx⟩ := ih.mp h
        exact ⟨c :: pre, post, by rw [hl]; rfl, by rw [hx, sumSizes_cons]; omega⟩
    · rintro ⟨pre, post, hl, hx⟩
      cases pre with
      | nil =>
        simp only [List.nil_append] at hl
        injection hl with hc hcs
        subst hc; subst hcs
        rw [sumSizes_nil] at hx
        simp only [withAddrs, List.mem_cons]
        left
        rw [hx]
        simp
      | cons p ps =>
        simp only [List.cons_append] at hl
        injection hl with hc hcs
        subst hc
        simp only [withAddrs, List.mem_cons]
        right
        refine ih.mpr ⟨ps, post, hcs, ?_⟩
        rw [hx, sumSizes_cons]
        omega

theorem findBlockGo_eq {a0 a : Nat} {l pre post : List Block} {b : Block} :
    findBlockGo a0 a l = some (pre, b, post) →
    l = pre ++ b :: post ∧ a = a0 + sumSizes pre := by
  induction l generalizing a0 pre with
  | nil => simp [findBlockGo]
  | cons c cs ih =>
    intro h
    simp only [findBlockGo] at h
    by_cases h0 : a0 = a
    · simp [h0] at h
      rcases h with ⟨h1, h2, h3⟩
      subst h1; subst h2; subst h3
      simp [sumSizes_nil, h0]
    · simp [h0] at h
      cases hrec : findBlockGo (a0 + c.size) a cs with
      | none => rw [hrec] at h; simp at h
      | some v =>
        obtain ⟨pre1, b1, post1⟩ := v
        rw [hrec] at h
        simp at h
        rcases h with ⟨h1, h2, h3⟩
        subst h1; subst h2; subst h3
        obtain ⟨hl, ha⟩ := ih hrec
        constructor
        · rw [hl]; rfl
        · rw [ha, sumSizes_cons]; omega

theorem findBlockGo_complete {a0 : Nat} {pre post : List Block} {b : Block}
    (hpos : ∀ x ∈ pre, 0 < x.size) :
    findBlockGo a0 (a0 + sumSizes pre) (pre ++ b :: post) = some (pre, b, post) := by
  induction pre generalizing a0 with
  | nil => simp [findBlockGo, sumSizes_nil]
  | cons c cs ih =>
    have hc : 0 < c.size := hpos c (by simp)
    have hcs : ∀ x ∈ cs, 0 < x.size := fun x hx => hpos x (by simp [hx])
    have hne : a0 ≠ a0 + sumSizes (c :: cs) := by
      rw [sumSizes_cons]; omega
    simp only [List.cons_append, findBlockGo, if_neg hne, List.append_eq]
    have h1 := @ih (a0 + c.size) hcs
    rw [show a0 + c.size + sumSizes cs = a0 + sumSizes (c :: cs) by rw [sumSizes_cons]; omega] at h1
    rw [h1]

theorem findBlock_decomp {s : HeapState} {a : Nat} {pre post : List Block} {b : Block} :
    findBlock s a = some (pre, b, post) →
    s.blocks = pre ++ b :: post ∧ a = 8 + sumSizes pre :=
  findBlockGo_eq

theorem findBlock_of_decomp {s : HeapState} {pre post : List Block} {b : Block}
    (hl : s.blocks = pre ++ b :: post) (hpre : ∀ x ∈ pre, 0 < x.size) :
    findBlock s (8 + sumSizes pre) = some (pre, b, post) := by
  unfold findBlock
  rw [hl]
  exact findBlockGo_complete hpre

theorem mem_addrBlocks_findBlock {s : HeapState} {a : Nat} {b : Block}
    (hpos : ∀ x ∈ s.blocks, 0 < x.size) (h : (a, b) ∈ addrBlocks s) :
    ∃ pre post, findBlock s a = some (pre, b, post) ∧
      s.blocks = pre ++ b :: post ∧ a = 8 + sumSizes pre := by
  obtain ⟨pre, post, hl, ha⟩ := mem_withAddrs_iff.mp h
  subst ha
  refine ⟨pre, post, findBlock_of_decomp hl ?_, hl, rfl⟩
  intro x hx
  exact hpos x (by rw [hl]; exact List.mem_append_left _ hx)

theorem findBlock_mem {s : HeapState} {a : Nat} {pre post : List Block} {b : Block}
    (h : findBlock s a = some (pre, b, post)) : (a, b) ∈ addrBlocks s := by
  obtain ⟨hl, ha⟩ := findBlock_decomp h
  exact mem_withAddrs_iff.mpr ⟨pre, post, hl, ha⟩

/-! ### Behaviour of the fit selector -/

theorem find_fitGo_none_of {s : HeapState} {asize : Nat} (l : List Nat)
    (hne : ∀ x ∈ l, sizeAt s x ≠ asize)
    (hbig : ∀ x ∈ l, asize < sizeAt s x → 2147483648 ≤ sizeAt s x) :
    find_fitGo s asize l none 2147483648 = none := by
  induction l with
  | nil => simp [find_fitGo]
  | cons bp rest ih =>
    have h1 : sizeAt s bp ≠ asize := hne bp (by simp)
    have h2 : ¬(sizeAt s bp < 2147483648 ∧ asize < sizeAt s bp) := by
      rintro ⟨hlt, hgt⟩
      exact absurd (hbig bp (by simp) hgt) (by omega)
    simp only [find_fitGo, if_neg h1, if_neg h2]
    exact ih (fun x hx => hne x (by simp [hx])) (fun x hx => hbig x (by simp [hx]))

theorem find_fitGo_exact {s : HeapState} {asize : Nat} (l1 : List Nat) {r : Nat}
    (l2 : List Nat) (best : Option Nat) (bs : Nat)
    (hr : sizeAt s r = asize) (hne : ∀ x ∈ l1, sizeAt s x ≠ asize) :
    find_fitGo s asize (l1 ++ r :: l2) best bs = some r := by
  induction l1 generalizing best bs with
  | nil => simp [find_fitGo, hr]
  | cons x xs ih =>
    have hx : sizeAt s x ≠ asize := hne x (by simp)
    have hxs : ∀ y ∈ xs, sizeAt s y ≠ asize := fun y hy => hne y (by simp [hy])
    by_cases hacc : sizeAt s x < bs ∧ asize < sizeAt s x
    · simp only [List.cons_append, find_fitGo, if_neg hx, if_pos hacc]
      exact ih _ _ hxs
    · simp only [List.cons_append, find_fitGo, if_neg hx, if_neg hacc]
      exact ih _ _ hxs

theorem find_fitGo_sound {s : HeapState} {asize : Nat} {M : List Nat} (l : List Nat)
    (best : Option Nat) (bs : Nat) (r : Nat)
    (hb : ∀ y, best = some y → y ∈ M ∧ asize ≤ sizeAt s y)
    (hl : ∀ x ∈ l, x ∈ M)
    (h : find_fitGo s asize l best bs = some r) :
    r ∈ M ∧ asize ≤ sizeAt s r := by
  induction l generalizing best bs with
  | nil =>
    simp only [find_fitGo] at h
    by_cases hbs : bs = 2147483648
    · simp [hbs] at h
    · rw [if_neg hbs] at h
      exact hb r h
  | cons bp rest ih =>
    by_cases hexact : sizeAt s bp = asize
    · simp only [find_fitGo, if_pos hexact] at h
      injection h with h
      subst h
      exact ⟨hl _ (by simp), le_of_eq hexact.symm⟩
    · by_cases hacc : sizeAt s bp < bs ∧ asize < sizeAt s bp
      · simp only [find_fitGo, if_neg hexact, if_pos hacc] at h
        refine ih _ _ ?_ (fun x hx => hl x (by simp [hx])) h
        rintro y hy
        injection hy with hy
        subst hy
        exact ⟨hl bp (by simp), le_of_lt hacc.2⟩
      · simp only [find_fitGo, if_neg hexact, if_neg hacc] at h
        exact ih _ _ hb (fun x hx => hl x (by simp [hx])) h

theorem find_fitGo_noexact {s : HeapState} {asize : Nat} (l : List Nat)
    (V : List Nat) (best : Option Nat) (bs : Nat)
    (hne : ∀ x ∈ l, sizeAt s x ≠ asize)
    (hinv : (best = none ∧ bs = 2147483648 ∧ ∀ c ∈ V, ¬candidate s asize c) ∨
      (∃ y, best = some y ∧ y ∈ V ∧ candidate s asize y ∧ bs = sizeAt s y ∧
        ∀ c ∈ V, candidate s asize c → bs ≤ sizeAt s c)) :
    (find_fitGo s asize l best bs = none → ∀ c ∈ V ++ l, ¬candidate s asize c) ∧
    (∀ r, find_fitGo s asize l best bs = some r → r ∈ V ++ l ∧ candidate s asize r ∧
      ∀ c ∈ V ++ l, candidate s asize c → sizeAt s r ≤ sizeAt s c) := by
  induction l generalizing V best bs with
  | nil =>
    simp only [find_fitGo, List.append_nil]
    rcases hinv with ⟨hb0, hbs2, hV⟩ | ⟨y, hby, hyV, hc, hbsy, hmin⟩
    · subst hbs2
      rw [if_pos rfl]
      exact ⟨fun _ => hV, fun r hr => Option.noConfusion hr⟩
    · have hbs : bs ≠ 2147483648 := by
        have hc2 := hc
        unfold candidate at hc2
        omega
      rw [if_neg hbs, hby]
      refine ⟨fun h => Option.noConfusion h, fun r hr => ?_⟩
      injection hr with hr
      subst hr
      refine ⟨hyV, hc, fun c hcV hcc => ?_⟩
      rw [← hbsy]
      exact hmin c hcV hcc
  | cons bp rest ih =>
    have hbp : sizeAt s bp ≠ asize := hne bp (by simp)
    have hrest : ∀ x ∈ rest, sizeAt s x ≠ asize := fun x hx => hne x (by simp [hx])
    have hmemV : ∀ c, (c ∈ V ++ bp :: rest) ↔ (c ∈ (V ++ [bp]) ++ rest) := by
      intro c
      simp only [List.mem_append, List.mem_cons, List.mem_singleton]
      tauto
    by_cases hacc : sizeAt s bp < bs ∧ asize < sizeAt s bp
    · have hbs31 : bs ≤ 2147483648 := by
        rcases hinv with ⟨_, hbs2, _⟩ | ⟨y, _, _, hc, hbsy, _⟩
        · omega
        · unfold candidate at hc
          omega
      have hcbp : candidate s asize bp := ⟨hacc.2, by omega⟩
      have hinv2 : (some bp = none ∧ sizeAt s bp = 2147483648 ∧
            ∀ c ∈ V ++ [bp], ¬candidate s asize c) ∨
          (∃ y, some bp = some y ∧ y ∈ V ++ [bp] ∧ candidate s asize y ∧
            sizeAt s bp = sizeAt s y ∧
            ∀ c ∈ V ++ [bp], candidate s asize c → sizeAt s bp ≤ sizeAt s c) := by
        right
        refine ⟨bp, rfl, by simp, hcbp, rfl, ?_⟩
        intro c hc hcc
        simp only [List.mem_append, List.mem_singleton] at hc
        rcases hc with hc | hc
        · rcases hinv with ⟨_, _, hV⟩ | ⟨y, _, _, _, hbsy, hmin⟩
          · exact absurd hcc (hV c hc)
          · have := hmin c hc hcc
            omega
        · subst hc
          exact le_refl _
      have hih := ih (V ++ [bp]) (some bp) (sizeAt s bp) hrest hinv2
      simp only [find_fitGo, if_neg hbp, if_pos hacc]
      constructor
      · intro h c hc
        exact hih.1 h c ((hmemV c).mp hc)
      · intro r hr
        obtain ⟨h1, h2, h3⟩ := hih.2 r hr
        exact ⟨(hmemV r).mpr h1, h2, fun c hc hcc => h3 c ((hmemV c).mp hc) hcc⟩
    · have hinv2 : (best = none ∧ bs = 2147483648 ∧
            ∀ c ∈ V ++ [bp], ¬candidate s asize c) ∨
          (∃ y, best = some y ∧ y ∈ V ++ [bp] ∧ candidate s asize y ∧ bs = sizeAt s y ∧
            ∀ c ∈ V ++ [bp], candidate s asize c → bs ≤ sizeAt s c) := by
        rcases hinv with ⟨hb0, hbs2, hV⟩ | ⟨y, hby, hyV, hc, hbsy, hmin⟩
        · left
          refine ⟨hb0, hbs2, fun c hc => ?_⟩
          simp only [List.mem_append, List.mem_singleton] at hc
          rcases hc with hc | hc
          · exact hV c hc
          · subst hc
            rintro ⟨hgt, hlt⟩
            exact hacc ⟨by omega, hgt⟩
        · right
          refine ⟨y, hby, by simp [hyV], hc, hbsy, fun c hc2 hcc => ?_⟩
          simp only [List.mem_append, List.mem_singleton] at hc2
          rcases hc2 with hc2 | hc2
          · exact hmin c hc2 hcc
          · subst hc2
            rcases hcc with ⟨hgt, hlt⟩
            by_cases hlt2 : sizeAt s c < bs
            · exact absurd ⟨hlt2, hgt⟩ hacc
            · omega
      have hih := ih (V ++ [bp]) best bs hrest hinv2
      simp only [find_fitGo, if_neg hbp, if_neg hacc]
      constructor
      · intro h c hc
        exact hih.1 h c ((hmemV c).mp hc)
      · intro r hr
        obtain ⟨h1, h2, h3⟩ := hih.2 r hr
        exact ⟨(hmemV r).mpr h1, h2, fun c hc hcc => h3 c ((hmemV c).mp hc) hcc⟩

theorem find_fit_sound {s : HeapState} {asize r : Nat}
    (h : find_fit s asize = some r) : r ∈ s.fl ∧ asize ≤ sizeAt s r :=
  find_fitGo_sound s.fl none 2147483648 r (fun y hy => by simp at hy)
    (fun x hx => hx) h

theorem find_fit_exact_first {s : HeapState} {asize r : Nat} {l1 l2 : List Nat}
    (hfl : s.fl = l1 ++ r :: l2) (hr : sizeAt s r = asize)
    (hne : ∀ x ∈ l1, sizeAt s x ≠ asize) : find_fit s asize = some r := by
  unfold find_fit
  rw [hfl]
  exact find_fitGo_exact l1 l2 none 2147483648 hr hne

theorem find_fit_noexact {s : HeapState} {asize : Nat}
    (hne : ∀ x ∈ s.fl, sizeAt s x ≠ asize) :
    (find_fit s asize = none → ∀ c ∈ s.fl, ¬candidate s asize c) ∧
    (∀ r, find_fit s asize = some r → r ∈ s.fl ∧ candidate s asize r ∧
      ∀ c ∈ s.fl, candidate s asize c → sizeAt s r ≤ sizeAt s c) := by
  have h := find_fitGo_noexact s.fl [] none 2147483648 hne
    (Or.inl ⟨rfl, rfl, by simp⟩)
  simpa using h

/-! ### The heap well-formedness invariant -/

theorem size_le_sumSizes {b : Block} {l : List Block} (h : b ∈ l) :
    b.size ≤ sumSizes l := by
  induction l with
  | nil => simp at h
  | cons c cs ih =>
    rw [sumSizes_cons]
    rcases List.mem_cons.mp h with h | h
    · subst h; omega
    · have := ih h; omega

theorem Inv.size_lt_U32 {s : HeapState} (hs : Inv s) {b : Block}
    (h : b ∈ s.blocks) : b.size < U32 := by
  have h1 := size_le_sumSizes h
  have h2 := hs.heapBound
  unfold heapSize at h2
  omega

theorem Inv.sum_lt_U32 {s : HeapState} (hs : Inv s) : 8 + sumSizes s.blocks ≤ s.brkLimit ∧ s.brkLimit < U32 :=
  hs.heapBound

/-- Any free-list entry points at an actual free block. -/
theorem Inv.fl_block {s : HeapState} (hs : Inv s) {a : Nat} (ha : a ∈ s.fl) :
    ∃ pre b post, findBlock s a = some (pre, b, post) ∧ b.alloc = false ∧
      s.blocks = pre ++ b :: post ∧ a = 8 + sumSizes pre := by
  have h1 := hs.flSub a ha
  simp only [List.mem_map] at h1
  obtain ⟨⟨x, b⟩, hmem, hx⟩ := h1
  simp only at hx
  obtain ⟨pre, post, hfind, hl, ha2⟩ :=
    mem_addrBlocks_findBlock (fun y hy => (hs.sizesPos y hy).1) hmem
  subst hx
  refine ⟨pre, b, post, hfind, ?_, hl, ha2⟩
  exact (hs.memIff _ hmem).mp ha

/-- The free-list entries, viewed through `sizeAt`, read the size of the
block stored at that address. -/
theorem sizeAt_of_findBlock {s : HeapState} {a : Nat} {pre post : List Block} {b : Block}
    (h : findBlock s a = some (pre, b, post)) : sizeAt s a = b.size := by
  unfold sizeAt
  rw [h]

theorem allocAt_of_findBlock {s : HeapState} {a : Nat} {pre post : List Block} {b : Block}
    (h : findBlock s a = some (pre, b, post)) : allocAt s a = b.alloc := by
  unfold allocAt
  rw [h]

theorem listInsert_eq (s : HeapState) (a : Nat) (h : allocAt s a = false) :
    listInsert s a = { s with fl := a :: s.fl } := by
  unfold listInsert
  rw [h]
  simp

theorem listRemove_eq (s : HeapState) (a : Nat) (h : sizeAt s a ≠ 0) :
    listRemove s a = { s with fl := s.fl.erase a } := by
  unfold listRemove
  rw [if_neg h]

/-! ### The four coalescing cases as state equations -/

theorem sumSizes_singleton (b : Block) : sumSizes [b] = b.size := by
  simp [sumSizes]

theorem getLast?_decomp {α : Type} {l : List α} {x : α} (h : l.getLast? = some x) :
    l = l.dropLast ++ [x] := by
  induction l with
  | nil => simp at h
  | cons a as ih =>
    cases as with
    | nil =>
      simp only [List.getLast?_singleton] at h
      injection h with h
      subst h
      simp
    | cons b bs =>
      rw [List.getLast?_cons_cons] at h
      have h2 := ih h
      show a :: (b :: bs) = (a :: b :: bs).dropLast ++ [x]
      rw [show (a :: b :: bs).dropLast = a :: (b :: bs).dropLast from rfl, List.cons_append,
        ← h2]

theorem findBlock_next {s : HeapState} {bp : Nat} {pre rest : List Block} {b nb : Block}
    (hfind : findBlock s bp = some (pre, b, nb :: rest))
    (hpos : ∀ x ∈ s.blocks, 0 < x.size) :
    findBlock s (bp + b.size) = some (pre ++ [b], nb, rest) := by
  obtain ⟨hl, ha⟩ := findBlock_decomp hfind
  have hl2 : s.blocks = (pre ++ [b]) ++ nb :: rest := by rw [hl]; simp
  have h2 := findBlock_of_decomp hl2 (by
    intro x hx
    exact hpos x (by rw [hl2]; exact List.mem_append_left _ hx))
  have haddr : 8 + sumSizes (pre ++ [b]) = bp + b.size := by
    rw [sumSizes_append, sumSizes_singleton]
    omega
  rw [haddr] at h2
  exact h2

theorem findBlock_prev {s : HeapState} {bp : Nat} {pre post : List Block} {b prevB : Block}
    (hfind : findBlock s bp = some (pre, b, post))
    (hlast : pre.getLast? = some prevB)
    (hpos : ∀ x ∈ s.blocks, 0 < x.size) :
    findBlock s (bp - prevB.size) = some (pre.dropLast, prevB, b :: post) ∧
      bp = 8 + sumSizes pre.dropLast + prevB.size := by
  obtain ⟨hl, ha⟩ := findBlock_decomp hfind
  have hpre := getLast?_decomp hlast
  have hsum : sumSizes pre = sumSizes pre.dropLast + prevB.size := by
    conv_lhs => rw [hpre]
    rw [sumSizes_append, sumSizes_singleton]
  have hbp : bp = 8 + sumSizes pre.dropLast + prevB.size := by omega
  have hl2 : s.blocks = pre.dropLast ++ prevB :: (b :: post) := by
    rw [hl]
    conv_lhs => rw [hpre]
    simp
  have h2 := findBlock_of_decomp hl2 (by
    intro x hx
    exact hpos x (by rw [hl2]; exact List.mem_append_left _ hx))
  have haddr : 8 + sumSizes pre.dropLast = bp - prevB.size := by omega
  rw [haddr] at h2
  exact ⟨h2, hbp⟩

theorem coalesce_case1 {s : HeapState} {bp : Nat} {pre post : List Block} {b prevB : Block}
    (hfind : findBlock s bp = some (pre, b, post))
    (hlast : pre.getLast? = some prevB)
    (hb : b.alloc = false)
    (hpa : prevB.alloc = true) (hna : headAlloc post = true) :
    coalesce s bp = ({ s with fl := bp :: s.fl }, bp) := by
  unfold coalesce
  rw [hfind]
  dsimp only
  rw [hlast]
  dsimp only
  rw [hpa, hna]
  simp only [Bool.and_self, eq_self_iff_true, if_true]
  rw [listInsert_eq s bp (by rw [allocAt_of_findBlock hfind, hb])]

theorem coalesce_case2 {s : HeapState} {bp : Nat} {pre rest : List Block} {b prevB nb : Block}
    (hfind : findBlock s bp = some (pre, b, nb :: rest))
    (hlast : pre.getLast? = some prevB)
    (hb : b.alloc = false) (hpa : prevB.alloc = true) (hnb : nb.alloc = false)
    (hpos : ∀ x ∈ s.blocks, 0 < x.size) :
    coalesce s bp =
      ({ blocks := pre ++ ⟨u32 (b.size + nb.size), false⟩ :: rest,
         fl := bp :: s.fl.erase (bp + b.size), brkLimit := s.brkLimit }, bp) := by
  have hnext := findBlock_next hfind hpos
  have hnbpos : 0 < nb.size := by
    refine hpos nb ?_
    rw [(findBlock_decomp hfind).1]
    simp
  have hprepos : ∀ x ∈ pre, 0 < x.size := by
    intro x hx
    refine hpos x ?_
    rw [(findBlock_decomp hfind).1]
    exact List.mem_append_left _ hx
  have hfind2 : findBlock
      (⟨pre ++ (⟨u32 (b.size + nb.size), false⟩ : Block) :: rest,
        s.fl.erase (bp + b.size), s.brkLimit⟩ : HeapState) bp =
      some (pre, ⟨u32 (b.size + nb.size), false⟩, rest) := by
    have h9 := findBlock_of_decomp
      (s := (⟨pre ++ (⟨u32 (b.size + nb.size), false⟩ : Block) :: rest,
        s.fl.erase (bp + b.size), s.brkLimit⟩ : HeapState))
      rfl hprepos
    rw [← (findBlock_decomp hfind).2] at h9
    exact h9
  unfold coalesce
  rw [hfind]
  dsimp only
  rw [hlast]
  dsimp only
  rw [hpa]
  rw [show headAlloc (nb :: rest) = false from hnb]
  simp only [Bool.and_false, Bool.false_eq_true, if_false, Bool.not_false, Bool.and_self,
    eq_self_iff_true, if_true]
  rw [listRemove_eq s (bp + b.size) (by rw [sizeAt_of_findBlock hnext]; omega)]
  dsimp only
  rw [listInsert_eq _ bp (by rw [allocAt_of_findBlock hfind2])]

theorem coalesce_case3 {s : HeapState} {bp : Nat} {pre post : List Block} {b prevB : Block}
    (hfind : findBlock s bp = some (pre, b, post))
    (hlast : pre.getLast? = some prevB)
    (hb : b.alloc = false)
    (hpa : prevB.alloc = false) (hna : headAlloc post = true) :
    coalesce s bp =
      ({ s with blocks := pre.dropLast ++ ⟨u32 (b.size + prevB.size), false⟩ :: post },
        bp - prevB.size) := by
  unfold coalesce
  rw [hfind]
  dsimp only
  rw [hlast]
  dsimp only
  rw [hpa, hna]
  simp only [Bool.false_and, Bool.false_eq_true, if_false, Bool.not_false, Bool.true_and,
    eq_self_iff_true, if_true]

theorem coalesce_case4 {s : HeapState} {bp : Nat} {pre rest : List Block} {b prevB nb : Block}
    (hfind : findBlock s bp = some (pre, b, nb :: rest))
    (hlast : pre.getLast? = some prevB)
    (hb : b.alloc = false) (hpa : prevB.alloc = false) (hnb : nb.alloc = false)
    (hpos : ∀ x ∈ s.blocks, 0 < x.size) :
    coalesce s bp =
      ({ blocks := pre.dropLast ++ ⟨u32 (b.size + prevB.size + nb.size), false⟩ :: rest,
         fl := (bp - prevB.size) :: (s.fl.erase (bp + b.size)).erase (bp - prevB.size),
         brkLimit := s.brkLimit }, bp - prevB.size) := by
  have hnext := findBlock_next hfind hpos
  obtain ⟨hprev, hbp⟩ := findBlock_prev hfind hlast hpos
  have hnbpos : 0 < nb.size := by
    refine hpos nb ?_
    rw [(findBlock_decomp hfind).1]
    simp
  have hpbpos : 0 < prevB.size := by
    refine hpos prevB ?_
    rw [(findBlock_decomp hfind).1, getLast?_decomp hlast]
    simp
  have hdroppos : ∀ x ∈ pre.dropLast, 0 < x.size := by
    intro x hx
    refine hpos x ?_
    rw [(findBlock_decomp hfind).1, getLast?_decomp hlast]
    simp only [List.append_assoc, List.mem_append]
    exact Or.inl hx
  have hfind3 : findBlock
      (⟨pre.dropLast ++ (⟨u32 (b.size + prevB.size + nb.size), false⟩ : Block) :: rest,
        (s.fl.erase (bp + b.size)).erase (bp - prevB.size), s.brkLimit⟩ : HeapState)
      (bp - prevB.size) =
      some (pre.dropLast, ⟨u32 (b.size + prevB.size + nb.size), false⟩, rest) := by
    have h9 := findBlock_of_decomp
      (s := (⟨pre.dropLast ++ (⟨u32 (b.size + prevB.size + nb.size), false⟩ : Block) :: rest,
        (s.fl.erase (bp + b.size)).erase (bp - prevB.size), s.brkLimit⟩ : HeapState))
      rfl hdroppos
    rw [show 8 + sumSizes pre.dropLast = bp - prevB.size by omega] at h9
    exact h9
  unfold coalesce
  rw [hfind]
  dsimp only
  rw [hlast]
  dsimp only
  rw [hpa]
  rw [show headAlloc (nb :: rest) = false from hnb]
  simp only [Bool.false_and, Bool.false_eq_true, if_false, Bool.not_false, Bool.and_false,
    Bool.and_self, Bool.true_and, eq_self_iff_true, if_true]
  rw [listRemove_eq s (bp + b.size) (by rw [sizeAt_of_findBlock hnext]; omega)]
  rw [listRemove_eq { s with fl := s.fl.erase (bp + b.size) } (bp - prevB.size)
    (by rw [show sizeAt { s with fl := s.fl.erase (bp + b.size) } (bp - prevB.size) =
        sizeAt s (bp - prevB.size) from rfl, sizeAt_of_findBlock hprev]; omega)]
  dsimp only
  rw [listInsert_eq _ (bp - prevB.size) (by rw [allocAt_of_findBlock hfind3])]

/-! ### Restoring the invariant after coalescing -/

theorem headAlloc_some {post : List Block} {y : Block} (h : post.head? = some y) :
    headAlloc post = y.alloc := by
  unfold headAlloc
  rw [h]

theorem addrBlocks_decomp {s : HeapState} {pre post : List Block} {b : Block}
    (hl : s.blocks = pre ++ b :: post) :
    addrBlocks s =
      withAddrs 8 pre ++ (8 + sumSizes pre, b) :: withAddrs (8 + sumSizes pre + b.size) post := by
  unfold addrBlocks
  rw [hl, withAddrs_append]
  rfl

theorem chain'_decomp {l1 l2 : List Block} {x : Block}
    (h : List.Chain' adjOk (l1 ++ x :: l2)) :
    List.Chain' adjOk l1 ∧ List.Chain' adjOk l2 ∧
    (∀ y ∈ l1.getLast?, adjOk y x) ∧ (∀ y ∈ l2.head?, adjOk x y) := by
  rw [List.chain'_append] at h
  obtain ⟨h1, h2, h3⟩ := h
  rw [List.chain'_cons'] at h2
  refine ⟨h1, h2.2, fun y hy => ?_, h2.1⟩
  exact h3 y hy x (by simp)

theorem chain'_build {l1 l2 : List Block} {x : Block}
    (h1 : List.Chain' adjOk l1) (h2 : List.Chain' adjOk l2)
    (h3 : ∀ y ∈ l1.getLast?, adjOk y x) (h4 : ∀ y ∈ l2.head?, adjOk x y) :
    List.Chain' adjOk (l1 ++ x :: l2) := by
  rw [List.chain'_append]
  refine ⟨h1, ?_, ?_⟩
  · rw [List.chain'_cons']
    exact ⟨h4, h2⟩
  · intro a ha c hc
    simp at hc
    subst hc
    exact h3 a ha

/-- A block whose payload address equals the address of the distinguished
block in a decomposition is that block. -/
theorem addr_unique {s : HeapState} {pre post : List Block} {b : Block}
    (hl : s.blocks = pre ++ b :: post)
    (hpos : ∀ x ∈ s.blocks, 0 < x.size)
    {p : Nat × Block} (hp : p ∈ addrBlocks s) (hpbp : p.1 = 8 + sumSizes pre) :
    p = (8 + sumSizes pre, b) := by
  rw [addrBlocks_decomp hl] at hp
  rcases List.mem_append.mp hp with hp1 | hp1
  · exfalso
    obtain ⟨x, c⟩ := p
    obtain ⟨h1, h2⟩ := mem_withAddrs_bounds hp1
    have hc : 0 < c.size := hpos c (by
      rw [hl]
      rcases mem_withAddrs_iff.mp hp1 with ⟨p1, p2, hpre, _⟩
      exact List.mem_append_left _ (by rw [hpre]; simp)
    )
    simp only at hpbp
    omega
  · rcases List.mem_cons.mp hp1 with hp2 | hp2
    · exact hp2
    · exfalso
      obtain ⟨x, c⟩ := p
      obtain ⟨h1, h2⟩ := mem_withAddrs_bounds hp2
      have hb : 0 < b.size := hpos b (by rw [hl]; simp)
      simp only at hpbp
      omega

theorem u32_small {n : Nat} (h : n < U32) : u32 n = n := Nat.mod_eq_of_lt h

theorem u32_mod8 {n : Nat} (h : n % 8 = 0) : u32 n % 8 = 0 := by
  unfold u32
  rw [Nat.mod_mod_of_dvd n (by norm_num : (8 : Nat) ∣ U32)]
  exact h

theorem mem_withAddrs_block {a0 : Nat} {l : List Block} {x : Nat} {c : Block}
    (h : (x, c) ∈ withAddrs a0 l) : c ∈ l := by
  obtain ⟨p1, p2, hl, _⟩ := mem_withAddrs_iff.mp h
  rw [hl]
  simp

theorem head?_append_left {α : Type} {l1 l2 : List α} {x : α} (h : l1.head? = some x) :
    (l1 ++ l2).head? = some x := by
  cases l1 with
  | nil => simp at h
  | cons a as => simpa using h

theorem coalesce_inv1 {s : HeapState} {bp : Nat} {pre post : List Block} {b : Block}
    (hfind : findBlock s bp = some (pre, b, post))
    (hfree : b.alloc = false)
    (hna : headAlloc post = true)
    (hnotin : bp ∉ s.fl)
    (hhead : s.blocks.head? = some ⟨8, true⟩)
    (hsizes : ∀ x ∈ s.blocks, 0 < x.size ∧ x.size % 8 = 0)
    (hbound : heapSize s ≤ s.brkLimit ∧ s.brkLimit < U32)
    (hmem : ∀ p ∈ addrBlocks s, p.1 ≠ bp → (p.1 ∈ s.fl ↔ p.2.alloc = false))
    (hsub : ∀ a ∈ s.fl, a ∈ (addrBlocks s).map Prod.fst)
    (hnd : s.fl.Nodup)
    (hcpre : List.Chain' adjOk pre) (hcpost : List.Chain' adjOk post)
    (hjoint : ∀ y ∈ pre.getLast?, adjOk y b) :
    Inv { s with fl := bp :: s.fl } := by
  obtain ⟨hl, hbp⟩ := findBlock_decomp hfind
  have hpos : ∀ x ∈ s.blocks, 0 < x.size := fun x hx => (hsizes x hx).1
  refine ⟨hhead, hsizes, hbound, ?_, ?_, ?_, ?_⟩
  · intro p hp
    by_cases hpb : p.1 = bp
    · have hpe := addr_unique hl hpos hp (by rw [hpb, hbp])
      rw [← hbp] at hpe
      subst hpe
      simp [hfree]
    · simp only [List.mem_cons]
      rw [show (p.1 = bp ∨ p.1 ∈ s.fl) ↔ p.1 ∈ s.fl by
        constructor
        · rintro (h | h)
          · exact absurd h hpb
          · exact h
        · exact Or.inr]
      exact hmem p hp hpb
  · intro a ha
    have ha2 : a = bp ∨ a ∈ s.fl := List.mem_cons.mp ha
    show a ∈ List.map Prod.fst (addrBlocks s)
    rcases ha2 with ha1 | ha1
    · subst ha1
      rw [addrBlocks_decomp hl]
      simp only [List.map_append, List.map_cons, List.mem_append, List.mem_cons]
      right
      left
      exact hbp
    · exact hsub a ha1
  · exact List.nodup_cons.mpr ⟨hnotin, hnd⟩
  · show List.Chain' adjOk s.blocks
    rw [hl]
    refine chain'_build hcpre hcpost hjoint ?_
    intro y hy
    right
    rw [← headAlloc_some hy]
    exact hna

theorem coalesce_inv2 {s : HeapState} {bp : Nat} {pre rest : List Block} {b prevB nb : Block}
    (hfind : findBlock s bp = some (pre, b, nb :: rest))
    (hlast : pre.getLast? = some prevB)
    (hfree : b.alloc = false) (hpa : prevB.alloc = true) (hnb : nb.alloc = false)
    (hnotin : bp ∉ s.fl)
    (hhead : s.blocks.head? = some ⟨8, true⟩)
    (hsizes : ∀ x ∈ s.blocks, 0 < x.size ∧ x.size % 8 = 0)
    (hbound : heapSize s ≤ s.brkLimit ∧ s.brkLimit < U32)
    (hmem : ∀ p ∈ addrBlocks s, p.1 ≠ bp → (p.1 ∈ s.fl ↔ p.2.alloc = false))
    (hsub : ∀ a ∈ s.fl, a ∈ (addrBlocks s).map Prod.fst)
    (hnd : s.fl.Nodup)
    (hcpre : List.Chain' adjOk pre) (hcpost : List.Chain' adjOk (nb :: rest)) :
    Inv (⟨pre ++ ⟨u32 (b.size + nb.size), false⟩ :: rest,
      bp :: s.fl.erase (bp + b.size), s.brkLimit⟩ : HeapState) := by
  obtain ⟨hl, hbp⟩ := findBlock_decomp hfind
  have hpos : ∀ x ∈ s.blocks, 0 < x.size := fun x hx => (hsizes x hx).1
  have hbmem : b ∈ s.blocks := by rw [hl]; simp
  have hnbmem : nb ∈ s.blocks := by rw [hl]; simp
  have hbpos : 0 < b.size := hpos b hbmem
  have hnbpos : 0 < nb.size := hpos nb hnbmem
  have hsum : sumSizes s.blocks = sumSizes pre + (b.size + nb.size) + sumSizes rest := by
    rw [hl, sumSizes_append, sumSizes_cons, sumSizes_cons]
    omega
  have hlt : b.size + nb.size < U32 := by
    obtain ⟨hb1, hb2⟩ := hbound
    unfold heapSize at hb1
    omega
  have hu : u32 (b.size + nb.size) = b.size + nb.size := u32_small hlt
  have hheadpre : pre.head? = some ⟨8, true⟩ := by
    cases pre with
    | nil => simp at hlast
    | cons p0 ps =>
      rw [hl] at hhead
      simpa using hhead
  have hold : addrBlocks s = withAddrs 8 pre ++ (bp, b) ::
      ((bp + b.size, nb) :: withAddrs (bp + b.size + nb.size) rest) := by
    rw [addrBlocks_decomp hl, ← hbp]
    rfl
  have hnew : addrBlocks (⟨pre ++ ⟨u32 (b.size + nb.size), false⟩ :: rest,
      bp :: s.fl.erase (bp + b.size), s.brkLimit⟩ : HeapState) =
      withAddrs 8 pre ++ (bp, (⟨u32 (b.size + nb.size), false⟩ : Block)) ::
        withAddrs (bp + b.size + nb.size) rest := by
    rw [addrBlocks_decomp (s := (⟨pre ++ ⟨u32 (b.size + nb.size), false⟩ :: rest,
      bp :: s.fl.erase (bp + b.size), s.brkLimit⟩ : HeapState)) rfl]
    rw [← hbp]
    have : bp + Block.size ⟨u32 (b.size + nb.size), false⟩ = bp + b.size + nb.size := by
      simp only [hu]
      omega
    rw [this]
  have hpre_lt : ∀ x c, (x, c) ∈ withAddrs 8 pre → x < bp := by
    intro x c hx
    obtain ⟨h1, h2⟩ := mem_withAddrs_bounds hx
    have hc : 0 < c.size := hpos c (by
      rw [hl]
      exact List.mem_append_left _ (mem_withAddrs_block hx))
    omega
  have hrest_ge : ∀ x c, (x, c) ∈ withAddrs (bp + b.size + nb.size) rest →
      bp + b.size + nb.size ≤ x := by
    intro x c hx
    exact (mem_withAddrs_bounds hx).1
  refine ⟨?_, ?_, ?_, ?_, ?_, ?_, ?_⟩
  · show (pre ++ _ :: rest).head? = some ⟨8, true⟩
    exact head?_append_left hheadpre
  · intro x hx
    rcases List.mem_append.mp hx with hx1 | hx1
    · exact hsizes x (by rw [hl]; exact List.mem_append_left _ hx1)
    · rcases List.mem_cons.mp hx1 with hx2 | hx2
      · subst hx2
        refine ⟨by simp [hu]; omega, ?_⟩
        show u32 (b.size + nb.size) % 8 = 0
        refine u32_mod8 ?_
        have m1 := (hsizes b hbmem).2
        have m2 := (hsizes nb hnbmem).2
        omega
      · exact hsizes x (by rw [hl]; simp [hx2])
  · show 8 + sumSizes (pre ++ _ :: rest) ≤ s.brkLimit ∧ s.brkLimit < U32
    rw [sumSizes_append, sumSizes_cons]
    show 8 + (sumSizes pre + (u32 (b.size + nb.size) + sumSizes rest)) ≤ s.brkLimit ∧ _
    rw [hu]
    obtain ⟨hb1, hb2⟩ := hbound
    unfold heapSize at hb1
    exact ⟨by omega, hb2⟩
  · intro p hp
    rw [hnew] at hp
    obtain ⟨x, c⟩ := p
    show x ∈ bp :: s.fl.erase (bp + b.size) ↔ c.alloc = false
    rcases List.mem_append.mp hp with hp1 | hp1
    · have hxlt : x < bp := hpre_lt x c hp1
      have hxne : x ≠ bp := by omega
      have hxnn : x ≠ bp + b.size := by omega
      have hmold := hmem (x, c) (by rw [hold]; exact List.mem_append_left _ hp1) hxne
      simp only [List.mem_cons, hnd.mem_erase_iff]
      constructor
      · rintro (h | ⟨_, h⟩)
        · exact absurd h hxne
        · exact hmold.mp h
      · intro h
        exact Or.inr ⟨hxnn, hmold.mpr h⟩
    · rcases List.mem_cons.mp hp1 with hp2 | hp2
      · injection hp2 with hp3 hp4
        subst hp3
        subst hp4
        simp
      · have hxge : bp + b.size + nb.size ≤ x := hrest_ge x c hp2
        have hxne : x ≠ bp := by omega
        have hxnn : x ≠ bp + b.size := by omega
        have hmold := hmem (x, c) (by
          rw [hold]
          refine List.mem_append_right _ ?_
          simp [hp2]) hxne
        simp only [List.mem_cons, hnd.mem_erase_iff]
        constructor
        · rintro (h | ⟨_, h⟩)
          · exact absurd h hxne
          · exact hmold.mp h
        · intro h
          exact Or.inr ⟨hxnn, hmold.mpr h⟩
  · intro a ha
    rcases List.mem_cons.mp ha with ha1 | ha1
    · subst ha1
      rw [hnew]
      simp
    · have hain : a ∈ s.fl := List.erase_subset _ _ ha1
      have hann : a ≠ bp + b.size := ((hnd.mem_erase_iff).mp ha1).1
      have hane : a ≠ bp := fun h => hnotin (h ▸ hain)
      have := hsub a hain
      rw [hold] at this
      simp only [List.map_append, List.map_cons, List.mem_append, List.mem_cons] at this
      rcases this with h1 | h1 | h1 | h1
      · rw [hnew]
        simp only [List.map_append, List.map_cons, List.mem_append, List.mem_cons]
        exact Or.inl h1
      · exact absurd h1 hane
      · exact absurd h1 hann
      · rw [hnew]
        simp only [List.map_append, List.map_cons, List.mem_append, List.mem_cons]
        right
        right
        exact h1
  · refine List.nodup_cons.mpr ⟨?_, hnd.erase _⟩
    intro hc
    exact hnotin (List.erase_subset _ _ hc)
  · show List.Chain' adjOk (pre ++ _ :: rest)
    have hct := (List.chain'_cons'.mp hcpost).2
    have hcj := (List.chain'_cons'.mp hcpost).1
    refine chain'_build hcpre hct ?_ ?_
    · intro y hy
      rw [hlast] at hy
      injection hy with hy
      subst hy
      exact Or.inl hpa
    · intro y hy
      right
      have := hcj y hy
      unfold adjOk at this
      rcases this with h | h
      · rw [hnb] at h
        exact absurd h (by simp)
      · exact h


theorem coalesce_inv3 {s : HeapState} {bp : Nat} {pre post : List Block} {b prevB : Block}
    (hfind : findBlock s bp = some (pre, b, post))
    (hlast : pre.getLast? = some prevB)
    (hfree : b.alloc = false) (hpa : prevB.alloc = false) (hna : headAlloc post = true)
    (hnotin : bp ∉ s.fl)
    (hhead : s.blocks.head? = some ⟨8, true⟩)
    (hsizes : ∀ x ∈ s.blocks, 0 < x.size ∧ x.size % 8 = 0)
    (hbound : heapSize s ≤ s.brkLimit ∧ s.brkLimit < U32)
    (hmem : ∀ p ∈ addrBlocks s, p.1 ≠ bp → (p.1 ∈ s.fl ↔ p.2.alloc = false))
    (hsub : ∀ a ∈ s.fl, a ∈ (addrBlocks s).map Prod.fst)
    (hnd : s.fl.Nodup)
    (hcpre : List.Chain' adjOk pre) (hcpost : List.Chain' adjOk post) :
    Inv { s with blocks := pre.dropLast ++ ⟨u32 (b.size + prevB.size), false⟩ :: post } := by
  obtain ⟨hl, hbp⟩ := findBlock_decomp hfind
  have hpos : ∀ x ∈ s.blocks, 0 < x.size := fun x hx => (hsizes x hx).1
  have hpre : pre = pre.dropLast ++ [prevB] := getLast?_decomp hlast
  have hbmem : b ∈ s.blocks := by rw [hl]; simp
  have hpbmem : prevB ∈ s.blocks := by
    rw [hl, hpre]
    simp
  have hbpos : 0 < b.size := hpos b hbmem
  have hpbpos : 0 < prevB.size := hpos prevB hpbmem
  have hsumpre : sumSizes pre = sumSizes pre.dropLast + prevB.size := by
    conv_lhs => rw [hpre]
    rw [sumSizes_append, sumSizes_singleton]
  have hsum : sumSizes s.blocks =
      sumSizes pre.dropLast + prevB.size + b.size + sumSizes post := by
    rw [hl, sumSizes_append, sumSizes_cons]
    omega
  have hlt : b.size + prevB.size < U32 := by
    obtain ⟨hb1, hb2⟩ := hbound
    unfold heapSize at hb1
    omega
  have hu : u32 (b.size + prevB.size) = b.size + prevB.size := u32_small hlt
  have hpaddr : bp - prevB.size = 8 + sumSizes pre.dropLast := by omega
  have hchains := @chain'_decomp pre.dropLast ([] : List Block) prevB
    (by rw [← hpre]; exact hcpre)
  have hdrop_ne : pre.dropLast ≠ [] := by
    intro h
    have h2 : pre = [prevB] := by rw [hpre, h]; rfl
    rw [hl, h2] at hhead
    simp at hhead
    rw [hhead] at hpa
    simp at hpa
  have hheadpre : pre.head? = some ⟨8, true⟩ := by
    cases pre with
    | nil => simp at hlast
    | cons p0 ps =>
      rw [hl] at hhead
      simpa using hhead
  have hheaddrop : pre.dropLast.head? = some ⟨8, true⟩ := by
    cases hd : pre.dropLast with
    | nil => exact absurd hd hdrop_ne
    | cons d0 ds =>
      have h3 : pre.head? = some d0 := by
        rw [hpre, hd]
        rfl
      rw [hheadpre] at h3
      injection h3 with h3
      rw [← h3]
      rfl
  have hold : addrBlocks s = withAddrs 8 pre.dropLast ++ (bp - prevB.size, prevB) ::
      ((bp, b) :: withAddrs (bp + b.size) post) := by
    rw [addrBlocks_decomp hl, ← hbp, hpre, withAddrs_append]
    rw [show withAddrs (8 + sumSizes pre.dropLast) [prevB] =
      [(8 + sumSizes pre.dropLast, prevB)] from rfl]
    rw [← hpaddr]
    have hx : bp - prevB.size + prevB.size = bp := by omega
    simp only [List.append_assoc, List.singleton_append, hx]
    rw [List.dropLast_concat]
  have hprevin : bp - prevB.size ∈ s.fl := by
    refine (hmem (bp - prevB.size, prevB) (by rw [hold]; simp) (by omega)).mpr hpa
  have hnew : addrBlocks { s with blocks :=
      pre.dropLast ++ ⟨u32 (b.size + prevB.size), false⟩ :: post } =
      withAddrs 8 pre.dropLast ++
        (bp - prevB.size, (⟨u32 (b.size + prevB.size), false⟩ : Block)) ::
        withAddrs (bp + b.size) post := by
    rw [addrBlocks_decomp (s := { s with blocks :=
      pre.dropLast ++ ⟨u32 (b.size + prevB.size), false⟩ :: post }) rfl]
    rw [← hpaddr]
    have hx : bp - prevB.size + Block.size ⟨u32 (b.size + prevB.size), false⟩ =
        bp + b.size := by
      simp only [hu]
      omega
    rw [hx]
  have hpre_lt : ∀ x c, (x, c) ∈ withAddrs 8 pre.dropLast → x < bp - prevB.size := by
    intro x c hx
    obtain ⟨h1, h2⟩ := mem_withAddrs_bounds hx
    have hc : 0 < c.size := hpos c (by
      rw [hl, hpre]
      refine List.mem_append_left _ ?_
      exact List.mem_append_left _ (mem_withAddrs_block hx))
    omega
  have hpost_ge : ∀ x c, (x, c) ∈ withAddrs (bp + b.size) post → bp + b.size ≤ x :=
    fun x c hx => (mem_withAddrs_bounds hx).1
  refine ⟨?_, ?_, ?_, ?_, ?_, ?_, ?_⟩
  · show (pre.dropLast ++ _ :: post).head? = some ⟨8, true⟩
    exact head?_append_left hheaddrop
  · intro x hx
    rcases List.mem_append.mp hx with hx1 | hx1
    · refine hsizes x ?_
      rw [hl, hpre]
      exact List.mem_append_left _ (List.mem_append_left _ hx1)
    · rcases List.mem_cons.mp hx1 with hx2 | hx2
      · subst hx2
        refine ⟨by simp [hu]; omega, ?_⟩
        show u32 (b.size + prevB.size) % 8 = 0
        refine u32_mod8 ?_
        have m1 := (hsizes b hbmem).2
        have m2 := (hsizes prevB hpbmem).2
        omega
      · exact hsizes x (by rw [hl]; simp [hx2])
  · show 8 + sumSizes (pre.dropLast ++ _ :: post) ≤ s.brkLimit ∧ s.brkLimit < U32
    rw [sumSizes_append, sumSizes_cons]
    show 8 + (sumSizes pre.dropLast + (u32 (b.size + prevB.size) + sumSizes post)) ≤
      s.brkLimit ∧ _
    rw [hu]
    obtain ⟨hb1, hb2⟩ := hbound
    unfold heapSize at hb1
    exact ⟨by omega, hb2⟩
  · intro p hp
    rw [hnew] at hp
    obtain ⟨x, c⟩ := p
    show x ∈ s.fl ↔ c.alloc = false
    rcases List.mem_append.mp hp with hp1 | hp1
    · have hxlt : x < bp - prevB.size := hpre_lt x c hp1
      exact hmem (x, c) (by rw [hold]; exact List.mem_append_left _ hp1) (by omega)
    · rcases List.mem_cons.mp hp1 with hp2 | hp2
      · injection hp2 with hp3 hp4
        subst hp3
        subst hp4
        simpa using hprevin
      · have hxge : bp + b.size ≤ x := hpost_ge x c hp2
        refine hmem (x, c) ?_ (by omega)
        rw [hold]
        refine List.mem_append_right _ ?_
        simp [hp2]
  · intro a ha
    have hane : a ≠ bp := fun h => hnotin (h ▸ ha)
    have h1 := hsub a ha
    rw [hold] at h1
    simp only [List.map_append, List.map_cons, List.mem_append, List.mem_cons] at h1
    show a ∈ List.map Prod.fst (addrBlocks _)
    rw [hnew]
    simp only [List.map_append, List.map_cons, List.mem_append, List.mem_cons]
    rcases h1 with h1 | h1 | h1 | h1
    · exact Or.inl h1
    · exact Or.inr (Or.inl h1)
    · exact absurd h1 hane
    · exact Or.inr (Or.inr h1)
  · exact hnd
  · show List.Chain' adjOk (pre.dropLast ++ _ :: post)
    refine chain'_build hchains.1 hcpost ?_ ?_
    · intro y hy
      have := hchains.2.2.1 y hy
      unfold adjOk at this
      rcases this with h | h
      · exact Or.inl h
      · rw [hpa] at h
        exact absurd h (by simp)
    · intro y hy
      right
      rw [← headAlloc_some hy]
      exact hna

theorem coalesce_inv4 {s : HeapState} {bp : Nat} {pre rest : List Block} {b prevB nb : Block}
    (hfind : findBlock s bp = some (pre, b, nb :: rest))
    (hlast : pre.getLast? = some prevB)
    (hfree : b.alloc = false) (hpa : prevB.alloc = false) (hnb : nb.alloc = false)
    (hnotin : bp ∉ s.fl)
    (hhead : s.blocks.head? = some ⟨8, true⟩)
    (hsizes : ∀ x ∈ s.blocks, 0 < x.size ∧ x.size % 8 = 0)
    (hbound : heapSize s ≤ s.brkLimit ∧ s.brkLimit < U32)
    (hmem : ∀ p ∈ addrBlocks s, p.1 ≠ bp → (p.1 ∈ s.fl ↔ p.2.alloc = false))
    (hsub : ∀ a ∈ s.fl, a ∈ (addrBlocks s).map Prod.fst)
    (hnd : s.fl.Nodup)
    (hcpre : List.Chain' adjOk pre) (hcpost : List.Chain' adjOk (nb :: rest)) :
    Inv (⟨pre.dropLast ++ ⟨u32 (b.size + prevB.size + nb.size), false⟩ :: rest,
      (bp - prevB.size) :: (s.fl.erase (bp + b.size)).erase (bp - prevB.size),
      s.brkLimit⟩ : HeapState) := by
  obtain ⟨hl, hbp⟩ := findBlock_decomp hfind
  have hpos : ∀ x ∈ s.blocks, 0 < x.size := fun x hx => (hsizes x hx).1
  have hpre : pre = pre.dropLast ++ [prevB] := getLast?_decomp hlast
  have hbmem : b ∈ s.blocks := by rw [hl]; simp
  have hnbmem : nb ∈ s.blocks := by rw [hl]; simp
  have hpbmem : prevB ∈ s.blocks := by
    rw [hl, hpre]
    simp
  have hbpos : 0 < b.size := hpos b hbmem
  have hnbpos : 0 < nb.size := hpos nb hnbmem
  have hpbpos : 0 < prevB.size := hpos prevB hpbmem
  have hsumpre : sumSizes pre = sumSizes pre.dropLast + prevB.size := by
    conv_lhs => rw [hpre]
    rw [sumSizes_append, sumSizes_singleton]
  have hsum : sumSizes s.blocks =
      sumSizes pre.dropLast + prevB.size + b.size + nb.size + sumSizes rest := by
    rw [hl, sumSizes_append, sumSizes_cons, sumSizes_cons]
    omega
  have hlt : b.size + prevB.size + nb.size < U32 := by
    obtain ⟨hb1, hb2⟩ := hbound
    unfold heapSize at hb1
    omega
  have hu : u32 (b.size + prevB.size + nb.size) = b.size + prevB.size + nb.size :=
    u32_small hlt
  have hpaddr : bp - prevB.size = 8 + sumSizes pre.dropLast := by omega
  have hchains := @chain'_decomp pre.dropLast ([] : List Block) prevB
    (by rw [← hpre]; exact hcpre)
  have hdrop_ne : pre.dropLast ≠ [] := by
    intro h
    have h2 : pre = [prevB] := by rw [hpre, h]; rfl
    rw [hl, h2] at hhead
    simp at hhead
    rw [hhead] at hpa
    simp at hpa
  have hheadpre : pre.head? = some ⟨8, true⟩ := by
    cases pre with
    | nil => simp at hlast
    | cons p0 ps =>
      rw [hl] at hhead
      simpa using hhead
  have hheaddrop : pre.dropLast.head? = some ⟨8, true⟩ := by
    cases hd : pre.dropLast with
    | nil => exact absurd hd hdrop_ne
    | cons d0 ds =>
      have h3 : pre.head? = some d0 := by
        rw [hpre, hd]
        rfl
      rw [hheadpre] at h3
      injection h3 with h3
      rw [← h3]
      rfl
  have hold : addrBlocks s = withAddrs 8 pre.dropLast ++ (bp - prevB.size, prevB) ::
      ((bp, b) :: ((bp + b.size, nb) :: withAddrs (bp + b.size + nb.size) rest)) := by
    rw [addrBlocks_decomp hl, ← hbp, hpre, withAddrs_append]
    rw [show withAddrs (8 + sumSizes pre.dropLast) [prevB] =
      [(8 + sumSizes pre.dropLast, prevB)] from rfl]
    rw [← hpaddr]
    have hx : bp - prevB.size + prevB.size = bp := by omega
    simp only [List.append_assoc, List.singleton_append, hx]
    rw [List.dropLast_concat]
    rfl
  have hprevin : bp - prevB.size ∈ s.fl := by
    refine (hmem (bp - prevB.size, prevB) (by rw [hold]; simp) (by omega)).mpr hpa
  have hnextin : bp + b.size ∈ s.fl := by
    refine (hmem (bp + b.size, nb) (by rw [hold]; simp) (by omega)).mpr hnb
  have hnew : addrBlocks (⟨pre.dropLast ++ ⟨u32 (b.size + prevB.size + nb.size), false⟩ :: rest,
      (bp - prevB.size) :: (s.fl.erase (bp + b.size)).erase (bp - prevB.size),
      s.brkLimit⟩ : HeapState) =
      withAddrs 8 pre.dropLast ++
        (bp - prevB.size, (⟨u32 (b.size + prevB.size + nb.size), false⟩ : Block)) ::
        withAddrs (bp + b.size + nb.size) rest := by
    rw [addrBlocks_decomp (s := (⟨pre.dropLast ++
      ⟨u32 (b.size + prevB.size + nb.size), false⟩ :: rest,
      (bp - prevB.size) :: (s.fl.erase (bp + b.size)).erase (bp - prevB.size),
      s.brkLimit⟩ : HeapState)) rfl]
    rw [← hpaddr]
    have hx : bp - prevB.size + Block.size ⟨u32 (b.size + prevB.size + nb.size), false⟩ =
        bp + b.size + nb.size := by
      simp only [hu]
      omega
    rw [hx]
  have hpre_lt : ∀ x c, (x, c) ∈ withAddrs 8 pre.dropLast → x < bp - prevB.size := by
    intro x c hx
    obtain ⟨h1, h2⟩ := mem_withAddrs_bounds hx
    have hc : 0 < c.size := hpos c (by
      rw [hl, hpre]
      refine List.mem_append_left _ ?_
      exact List.mem_append_left _ (mem_withAddrs_block hx))
    omega
  have hrest_ge : ∀ x c, (x, c) ∈ withAddrs (bp + b.size + nb.size) rest →
      bp + b.size + nb.size ≤ x :=
    fun x c hx => (mem_withAddrs_bounds hx).1
  have hndE : (s.fl.erase (bp + b.size)).Nodup := hnd.erase _
  have hmemEE : ∀ x, x ∈ (s.fl.erase (bp + b.size)).erase (bp - prevB.size) ↔
      (x ≠ bp - prevB.size ∧ x ≠ bp + b.size ∧ x ∈ s.fl) := by
    intro x
    rw [hndE.mem_erase_iff, hnd.mem_erase_iff]
  refine ⟨?_, ?_, ?_, ?_, ?_, ?_, ?_⟩
  · show (pre.dropLast ++ _ :: rest).head? = some ⟨8, true⟩
    exact head?_append_left hheaddrop
  · intro x hx
    rcases List.mem_append.mp hx with hx1 | hx1
    · refine hsizes x ?_
      rw [hl, hpre]
      exact List.mem_append_left _ (List.mem_append_left _ hx1)
    · rcases List.mem_cons.mp hx1 with hx2 | hx2
      · subst hx2
        refine ⟨by simp [hu]; omega, ?_⟩
        show u32 (b.size + prevB.size + nb.size) % 8 = 0
        refine u32_mod8 ?_
        have m1 := (hsizes b hbmem).2
        have m2 := (hsizes prevB hpbmem).2
        have m3 := (hsizes nb hnbmem).2
        omega
      · exact hsizes x (by rw [hl]; simp [hx2])
  · show 8 + sumSizes (pre.dropLast ++ _ :: rest) ≤ s.brkLimit ∧ s.brkLimit < U32
    rw [sumSizes_append, sumSizes_cons]
    show 8 + (sumSizes pre.dropLast + (u32 (b.size + prevB.size + nb.size) + sumSizes rest)) ≤
      s.brkLimit ∧ _
    rw [hu]
    obtain ⟨hb1, hb2⟩ := hbound
    unfold heapSize at hb1
    exact ⟨by omega, hb2⟩
  · intro p hp
    rw [hnew] at hp
    obtain ⟨x, c⟩ := p
    show x ∈ (bp - prevB.size) :: (s.fl.erase (bp + b.size)).erase (bp - prevB.size) ↔
      c.alloc = false
    rcases List.mem_append.mp hp with hp1 | hp1
    · have hxlt : x < bp - prevB.size := hpre_lt x c hp1
      have hmold := hmem (x, c) (by rw [hold]; exact List.mem_append_left _ hp1) (by omega)
      simp only [List.mem_cons, hmemEE]
      constructor
      · rintro (h | ⟨_, _, h⟩)
        · omega
        · exact hmold.mp h
      · intro h
        exact Or.inr ⟨by omega, by omega, hmold.mpr h⟩
    · rcases List.mem_cons.mp hp1 with hp2 | hp2
      · injection hp2 with hp3 hp4
        subst hp3
        subst hp4
        simp
      · have hxge : bp + b.size + nb.size ≤ x := hrest_ge x c hp2
        have hmold := hmem (x, c) (by
          rw [hold]
          refine List.mem_append_right _ ?_
          simp [hp2]) (by omega)
        simp only [List.mem_cons, hmemEE]
        constructor
        · rintro (h | ⟨_, _, h⟩)
          · omega
          · exact hmold.mp h
        · intro h
          exact Or.inr ⟨by omega, by omega, hmold.mpr h⟩
  · intro a ha
    show a ∈ List.map Prod.fst (addrBlocks _)
    rw [hnew]
    simp only [List.map_append, List.map_cons, List.mem_append, List.mem_cons]
    rcases List.mem_cons.mp ha with ha1 | ha1
    · exact Or.inr (Or.inl ha1)
    · obtain ⟨hne1, hne2, hain⟩ := (hmemEE a).mp ha1
      have hane : a ≠ bp := fun h => hnotin (h ▸ hain)
      have h1 := hsub a hain
      rw [hold] at h1
      simp only [List.map_append, List.map_cons, List.mem_append, List.mem_cons] at h1
      rcases h1 with h1 | h1 | h1 | h1 | h1
      · exact Or.inl h1
      · exact absurd h1 hne1
      · exact absurd h1 hane
      · exact absurd h1 hne2
      · exact Or.inr (Or.inr h1)
  · refine List.nodup_cons.mpr ⟨?_, hndE.erase _⟩
    intro hc
    exact absurd rfl ((hmemEE _).mp hc).1
  · show List.Chain' adjOk (pre.dropLast ++ _ :: rest)
    have hct := (List.chain'_cons'.mp hcpost).2
    have hcj := (List.chain'_cons'.mp hcpost).1
    refine chain'_build hchains.1 hct ?_ ?_
    · intro y hy
      have := hchains.2.2.1 y hy
      unfold adjOk at this
      rcases this with h | h
      · exact Or.inl h
      · rw [hpa] at h
        exact absurd h (by simp)
    · intro y hy
      right
      have := hcj y hy
      unfold adjOk at this
      rcases this with h | h
      · rw [hnb] at h
        exact absurd h (by simp)
      · exact h


theorem block_size_mk (n : Nat) (a : Bool) : Block.size ⟨n, a⟩ = n := rfl

/-- Combined specification of `coalesce` from a state that is well-formed
except that the block at `bp` has just been marked free without being
indexed yet: the result satisfies the full invariant, preserves the total
heap size and the break limit, the returned address is an indexed free block
at least as large as the input block, and every allocated block survives at
its address. -/
theorem coalesce_full {s : HeapState} {bp : Nat} {pre post : List Block} {b : Block}
    (hfind : findBlock s bp = some (pre, b, post))
    (hfree : b.alloc = false)
    (hnotin : bp ∉ s.fl)
    (hhead : s.blocks.head? = some ⟨8, true⟩)
    (hsizes : ∀ x ∈ s.blocks, 0 < x.size ∧ x.size % 8 = 0)
    (hbound : heapSize s ≤ s.brkLimit ∧ s.brkLimit < U32)
    (hmem : ∀ p ∈ addrBlocks s, p.1 ≠ bp → (p.1 ∈ s.fl ↔ p.2.alloc = false))
    (hsub : ∀ a ∈ s.fl, a ∈ (addrBlocks s).map Prod.fst)
    (hnd : s.fl.Nodup)
    (hcpre : List.Chain' adjOk pre) (hcpost : List.Chain' adjOk post) :
    Inv (coalesce s bp).1 ∧
    sumSizes (coalesce s bp).1.blocks = sumSizes s.blocks ∧
    (coalesce s bp).1.brkLimit = s.brkLimit ∧
    (coalesce s bp).2 ∈ (coalesce s bp).1.fl ∧
    (∃ pre2 m post2, findBlock (coalesce s bp).1 (coalesce s bp).2 = some (pre2, m, post2) ∧
      m.alloc = false ∧ b.size ≤ m.size ∧ pre2 ≠ []) ∧
    (∀ p ∈ addrBlocks s, p.2.alloc = true → p ∈ addrBlocks (coalesce s bp).1) := by
  obtain ⟨hl, hbp⟩ := findBlock_decomp hfind
  have hpos : ∀ x ∈ s.blocks, 0 < x.size := fun x hx => (hsizes x hx).1
  have hbmem : b ∈ s.blocks := by rw [hl]; simp
  have hbpos : 0 < b.size := hpos b hbmem
  have hpre_ne : pre ≠ [] := by
    intro h
    subst h
    rw [hl] at hhead
    simp at hhead
    rw [hhead] at hfree
    simp at hfree
  obtain ⟨prevB, hlast⟩ : ∃ x, pre.getLast? = some x := by
    cases hg : pre.getLast? with
    | none => exact absurd (List.getLast?_eq_none_iff.mp hg) hpre_ne
    | some x => exact ⟨x, rfl⟩
  have hpre : pre = pre.dropLast ++ [prevB] := getLast?_decomp hlast
  have hpbmem : prevB ∈ s.blocks := by
    rw [hl, hpre]
    simp
  have hpbpos : 0 < prevB.size := hpos prevB hpbmem
  have hsumpre : sumSizes pre = sumSizes pre.dropLast + prevB.size := by
    conv_lhs => rw [hpre]
    rw [sumSizes_append, sumSizes_singleton]
  have hpaddr : bp - prevB.size = 8 + sumSizes pre.dropLast := by omega
  cases hpa : prevB.alloc with
  | true =>
    cases hna : headAlloc post with
    | true =>
      rw [coalesce_case1 hfind hlast hfree hpa hna]
      refine ⟨coalesce_inv1 hfind hfree hna hnotin hhead hsizes hbound hmem hsub hnd
        hcpre hcpost ?_, rfl, rfl, by simp, ?_, ?_⟩
      · intro y hy
        rw [hlast] at hy
        injection hy with hy
        subst hy
        exact Or.inl hpa
      · refine ⟨pre, b, post, hfind, hfree, le_refl _, hpre_ne⟩
      · intro p hp _
        exact hp
    | false =>
      cases post with
      | nil => simp [headAlloc] at hna
      | cons nb rest =>
        have hnb : nb.alloc = false := hna
        rw [coalesce_case2 hfind hlast hfree hpa hnb hpos]
        have hnbmem : nb ∈ s.blocks := by rw [hl]; simp
        have hnbpos : 0 < nb.size := hpos nb hnbmem
        have hsum : sumSizes s.blocks =
            sumSizes pre + (b.size + nb.size) + sumSizes rest := by
          rw [hl, sumSizes_append, sumSizes_cons, sumSizes_cons]
          omega
        have hlt : b.size + nb.size < U32 := by
          obtain ⟨hb1, hb2⟩ := hbound
          unfold heapSize at hb1
          omega
        have hu : u32 (b.size + nb.size) = b.size + nb.size := u32_small hlt
        have hprepos : ∀ x ∈ pre, 0 < x.size := by
          intro x hx
          exact hpos x (by rw [hl]; exact List.mem_append_left _ hx)
        have hfind2 : findBlock
            (⟨pre ++ ⟨u32 (b.size + nb.size), false⟩ :: rest,
              bp :: s.fl.erase (bp + b.size), s.brkLimit⟩ : HeapState) bp =
            some (pre, ⟨u32 (b.size + nb.size), false⟩, rest) := by
          have h9 := findBlock_of_decomp
            (s := (⟨pre ++ ⟨u32 (b.size + nb.size), false⟩ :: rest,
              bp :: s.fl.erase (bp + b.size), s.brkLimit⟩ : HeapState)) rfl hprepos
          rw [← hbp] at h9
          exact h9
        refine ⟨coalesce_inv2 hfind hlast hfree hpa hnb hnotin hhead hsizes hbound
          hmem hsub hnd hcpre hcpost, ?_, rfl, by simp, ?_, ?_⟩
        · show sumSizes (pre ++ _ :: rest) = _
          rw [sumSizes_append, sumSizes_cons, block_size_mk, hu, hsum]
          omega
        · refine ⟨pre, ⟨u32 (b.size + nb.size), false⟩, rest, hfind2, rfl, ?_, hpre_ne⟩
          show b.size ≤ u32 (b.size + nb.size)
          rw [hu]
          omega
        · intro p hp hpa2
          obtain ⟨x, c⟩ := p
          rw [addrBlocks_decomp hl, ← hbp] at hp
          show (x, c) ∈ addrBlocks (⟨pre ++ ⟨u32 (b.size + nb.size), false⟩ :: rest,
            bp :: s.fl.erase (bp + b.size), s.brkLimit⟩ : HeapState)
          rw [addrBlocks_decomp (s := (⟨pre ++ ⟨u32 (b.size + nb.size), false⟩ :: rest,
            bp :: s.fl.erase (bp + b.size), s.brkLimit⟩ : HeapState)) rfl, ← hbp]
          rcases List.mem_append.mp hp with hp1 | hp1
          · exact List.mem_append_left _ hp1
          · rcases List.mem_cons.mp hp1 with hp2 | hp2
            · exfalso
              injection hp2 with hp3 hp4
              subst hp4
              rw [hfree] at hpa2
              simp at hpa2
            · rcases List.mem_cons.mp hp2 with hp3 | hp3
              · exfalso
                injection hp3 with hp4 hp5
                subst hp5
                rw [hnb] at hpa2
                simp at hpa2
              · refine List.mem_append_right _ ?_
                refine List.mem_cons.mpr (Or.inr ?_)
                have hx : bp + b.size + nb.size =
                    bp + Block.size ⟨u32 (b.size + nb.size), false⟩ := by
                  show bp + b.size + nb.size = bp + u32 (b.size + nb.size)
                  rw [hu]
                  omega
                rw [← hx]
                exact hp3
  | false =>
    cases hna : headAlloc post with
    | true =>
      rw [coalesce_case3 hfind hlast hfree hpa hna]
      have hsum : sumSizes s.blocks =
          sumSizes pre.dropLast + prevB.size + b.size + sumSizes post := by
        rw [hl, sumSizes_append, sumSizes_cons]
        omega
      have hlt : b.size + prevB.size < U32 := by
        obtain ⟨hb1, hb2⟩ := hbound
        unfold heapSize at hb1
        omega
      have hu : u32 (b.size + prevB.size) = b.size + prevB.size := u32_small hlt
      have hdrop_ne : pre.dropLast ≠ [] := by
        intro h
        have h2 : pre = [prevB] := by rw [hpre, h]; rfl
        rw [hl, h2] at hhead
        simp at hhead
        rw [hhead] at hpa
        simp at hpa
      have hdroppos : ∀ x ∈ pre.dropLast, 0 < x.size := by
        intro x hx
        refine hpos x ?_
        rw [hl, hpre]
        exact List.mem_append_left _ (List.mem_append_left _ hx)
      have hold : addrBlocks s = withAddrs 8 pre.dropLast ++ (bp - prevB.size, prevB) ::
          ((bp, b) :: withAddrs (bp + b.size) post) := by
        rw [addrBlocks_decomp hl, ← hbp, hpre, withAddrs_append]
        rw [show withAddrs (8 + sumSizes pre.dropLast) [prevB] =
          [(8 + sumSizes pre.dropLast, prevB)] from rfl]
        rw [← hpaddr]
        have hx : bp - prevB.size + prevB.size = bp := by omega
        simp only [List.append_assoc, List.singleton_append, hx]
        rw [List.dropLast_concat]
      have hprevin : bp - prevB.size ∈ s.fl :=
        (hmem (bp - prevB.size, prevB) (by rw [hold]; simp) (by omega)).mpr hpa
      have hfind3 : findBlock ({ s with blocks :=
          pre.dropLast ++ ⟨u32 (b.size + prevB.size), false⟩ :: post } : HeapState)
          (bp - prevB.size) =
          some (pre.dropLast, ⟨u32 (b.size + prevB.size), false⟩, post) := by
        have h9 := findBlock_of_decomp
          (s := ({ s with blocks :=
            pre.dropLast ++ ⟨u32 (b.size + prevB.size), false⟩ :: post } : HeapState))
          rfl hdroppos
        rw [← hpaddr] at h9
        exact h9
      refine ⟨coalesce_inv3 hfind hlast hfree hpa hna hnotin hhead hsizes hbound
        hmem hsub hnd hcpre hcpost, ?_, rfl, ?_, ?_, ?_⟩
      · show sumSizes (pre.dropLast ++ _ :: post) = _
        rw [sumSizes_append, sumSizes_cons, block_size_mk, hu, hsum]
        omega
      · exact hprevin
      · refine ⟨pre.dropLast, ⟨u32 (b.size + prevB.size), false⟩, post, hfind3, rfl, ?_,
          hdrop_ne⟩
        show b.size ≤ u32 (b.size + prevB.size)
        rw [hu]
        omega
      · intro p hp hpa2
        obtain ⟨x, c⟩ := p
        rw [hold] at hp
        show (x, c) ∈ addrBlocks ({ s with blocks :=
          pre.dropLast ++ ⟨u32 (b.size + prevB.size), false⟩ :: post } : HeapState)
        rw [addrBlocks_decomp (s := ({ s with blocks :=
          pre.dropLast ++ ⟨u32 (b.size + prevB.size), false⟩ :: post } : HeapState)) rfl,
          ← hpaddr]
        rcases List.mem_append.mp hp with hp1 | hp1
        · exact List.mem_append_left _ hp1
        · rcases List.mem_cons.mp hp1 with hp2 | hp2
          · exfalso
            injection hp2 with hp3 hp4
            subst hp4
            rw [hpa] at hpa2
            simp at hpa2
          · rcases List.mem_cons.mp hp2 with hp3 | hp3
            · exfalso
              injection hp3 with hp4 hp5
              subst hp5
              rw [hfree] at hpa2
              simp at hpa2
            · refine List.mem_append_right _ ?_
              refine List.mem_cons.mpr (Or.inr ?_)
              have hx : bp + b.size =
                  bp - prevB.size + Block.size ⟨u32 (b.size + prevB.size), false⟩ := by
                show bp + b.size = bp - prevB.size + u32 (b.size + prevB.size)
                rw [hu]
                omega
              rw [← hx]
              exact hp3
    | false =>
      cases post with
      | nil => simp [headAlloc] at hna
      | cons nb rest =>
        have hnb : nb.alloc = false := hna
        rw [coalesce_case4 hfind hlast hfree hpa hnb hpos]
        have hnbmem : nb ∈ s.blocks := by rw [hl]; simp
        have hnbpos : 0 < nb.size := hpos nb hnbmem
        have hsum : sumSizes s.blocks =
            sumSizes pre.dropLast + prevB.size + b.size + nb.size + sumSizes rest := by
          rw [hl, sumSizes_append, sumSizes_cons, sumSizes_cons]
          omega
        have hlt : b.size + prevB.size + nb.size < U32 := by
          obtain ⟨hb1, hb2⟩ := hbound
          unfold heapSize at hb1
          omega
        have hu : u32 (b.size + prevB.size + nb.size) = b.size + prevB.size + nb.size :=
          u32_small hlt
        have hdrop_ne : pre.dropLast ≠ [] := by
          intro h
          have h2 : pre = [prevB] := by rw [hpre, h]; rfl
          rw [hl, h2] at hhead
          simp at hhead
          rw [hhead] at hpa
          simp at hpa
        have hdroppos : ∀ x ∈ pre.dropLast, 0 < x.size := by
          intro x hx
          refine hpos x ?_
          rw [hl, hpre]
          exact List.mem_append_left _ (List.mem_append_left _ hx)
        have hold : addrBlocks s = withAddrs 8 pre.dropLast ++ (bp - prevB.size, prevB) ::
            ((bp, b) :: ((bp + b.size, nb) :: withAddrs (bp + b.size + nb.size) rest)) := by
          rw [addrBlocks_decomp hl, ← hbp, hpre, withAddrs_append]
          rw [show withAddrs (8 + sumSizes pre.dropLast) [prevB] =
            [(8 + sumSizes pre.dropLast, prevB)] from rfl]
          rw [← hpaddr]
          have hx : bp - prevB.size + prevB.size = bp := by omega
          simp only [List.append_assoc, List.singleton_append, hx]
          rw [List.dropLast_concat]
          rfl
        have hprevin : bp - prevB.size ∈ s.fl :=
          (hmem (bp - prevB.size, prevB) (by rw [hold]; simp) (by omega)).mpr hpa
        have hfind4 : findBlock
            (⟨pre.dropLast ++ ⟨u32 (b.size + prevB.size + nb.size), false⟩ :: rest,
              (bp - prevB.size) :: (s.fl.erase (bp + b.size)).erase (bp - prevB.size),
              s.brkLimit⟩ : HeapState) (bp - prevB.size) =
            some (pre.dropLast, ⟨u32 (b.size + prevB.size + nb.size), false⟩, rest) := by
          have h9 := findBlock_of_decomp
            (s := (⟨pre.dropLast ++ ⟨u32 (b.size + prevB.size + nb.size), false⟩ :: rest,
              (bp - prevB.size) :: (s.fl.erase (bp + b.size)).erase (bp - prevB.size),
              s.brkLimit⟩ : HeapState)) rfl hdroppos
          rw [← hpaddr] at h9
          exact h9
        refine ⟨coalesce_inv4 hfind hlast hfree hpa hnb hnotin hhead hsizes hbound
          hmem hsub hnd hcpre hcpost, ?_, rfl, by simp, ?_, ?_⟩
        · show sumSizes (pre.dropLast ++ _ :: rest) = _
          rw [sumSizes_append, sumSizes_cons, block_size_mk, hu, hsum]
          omega
        · refine ⟨pre.dropLast, ⟨u32 (b.size + prevB.size + nb.size), false⟩, rest, hfind4,
            rfl, ?_, hdrop_ne⟩
          show b.size ≤ u32 (b.size + prevB.size + nb.size)
          rw [hu]
          omega
        · intro p hp hpa2
          obtain ⟨x, c⟩ := p
          rw [hold] at hp
          show (x, c) ∈ addrBlocks
            (⟨pre.dropLast ++ ⟨u32 (b.size + prevB.size + nb.size), false⟩ :: rest,
              (bp - prevB.size) :: (s.fl.erase (bp + b.size)).erase (bp - prevB.size),
              s.brkLimit⟩ : HeapState)
          rw [addrBlocks_decomp (s :=
            (⟨pre.dropLast ++ ⟨u32 (b.size + prevB.size + nb.size), false⟩ :: rest,
              (bp - prevB.size) :: (s.fl.erase (bp + b.size)).erase (bp - prevB.size),
              s.brkLimit⟩ : HeapState)) rfl, ← hpaddr]
          rcases List.mem_append.mp hp with hp1 | hp1
          · exact List.mem_append_left _ hp1
          · rcases List.mem_cons.mp hp1 with hp2 | hp2
            · exfalso
              injection hp2 with hp3 hp4
              subst hp4
              rw [hpa] at hpa2
              simp at hpa2
            · rcases List.mem_cons.mp hp2 with hp3 | hp3
              · exfalso
                injection hp3 with hp4 hp5
                subst hp5
                rw [hfree] at hpa2
                simp at hpa2
              · rcases List.mem_cons.mp hp3 with hp4 | hp4
                · exfalso
                  injection hp4 with hp5 hp6
                  subst hp6
                  rw [hnb] at hpa2
                  simp at hpa2
                · refine List.mem_append_right _ ?_
                  refine List.mem_cons.mpr (Or.inr ?_)
                  have hx : bp + b.size + nb.size = bp - prevB.size +
                      Block.size ⟨u32 (b.size + prevB.size + nb.size), false⟩ := by
                    show bp + b.size + nb.size =
                      bp - prevB.size + u32 (b.size + prevB.size + nb.size)
                    rw [hu]
                    omega
                  rw [← hx]
                  exact hp4


/-! ### Preservation through the public operations -/

theorem mm_free_full {s : HeapState} {bp : Nat} {pre post : List Block} {b : Block}
    (hs : Inv s)
    (hfind : findBlock s bp = some (pre, b, post))
    (halloc : b.alloc = true) (hpre_ne : pre ≠ []) :
    Inv (mm_free s bp) ∧ sumSizes (mm_free s bp).blocks = sumSizes s.blocks ∧
    (mm_free s bp).brkLimit = s.brkLimit := by
  obtain ⟨hl, hbp⟩ := findBlock_decomp hfind
  have hpos : ∀ x ∈ s.blocks, 0 < x.size := fun x hx => (hs.sizesPos x hx).1
  have hbp0 : bp ≠ 0 := by omega
  have hprepos : ∀ x ∈ pre, 0 < x.size := by
    intro x hx
    exact hpos x (by rw [hl]; exact List.mem_append_left _ hx)
  have hfind1 : findBlock (⟨pre ++ (⟨b.size, false⟩ : Block) :: post, s.fl,
      s.brkLimit⟩ : HeapState) bp = some (pre, ⟨b.size, false⟩, post) := by
    have h9 := findBlock_of_decomp (s := (⟨pre ++ (⟨b.size, false⟩ : Block) :: post,
      s.fl, s.brkLimit⟩ : HeapState)) rfl hprepos
    rw [← hbp] at h9
    exact h9
  have hheadpre : pre.head? = some ⟨8, true⟩ := by
    cases pre with
    | nil => exact absurd rfl hpre_ne
    | cons p0 ps =>
      have h0 := hs.prologue
      rw [hl] at h0
      simpa using h0
  have hnotin : bp ∉ s.fl := by
    intro hc
    have h0 := (hs.memIff (bp, b) (findBlock_mem hfind)).mp hc
    rw [halloc] at h0
    simp at h0
  have hchains := @chain'_decomp pre post b (by
    rw [← hl]
    exact hs.noAdj)
  have hmem1 : ∀ p ∈ addrBlocks (⟨pre ++ (⟨b.size, false⟩ : Block) :: post, s.fl,
      s.brkLimit⟩ : HeapState), p.1 ≠ bp → (p.1 ∈ s.fl ↔ p.2.alloc = false) := by
    intro p hp hpne
    rw [addrBlocks_decomp (s := (⟨pre ++ (⟨b.size, false⟩ : Block) :: post, s.fl,
      s.brkLimit⟩ : HeapState)) rfl] at hp
    refine hs.memIff p ?_
    rw [addrBlocks_decomp hl]
    rcases List.mem_append.mp hp with hp1 | hp1
    · exact List.mem_append_left _ hp1
    · rcases List.mem_cons.mp hp1 with hp2 | hp2
      · exfalso
        refine hpne ?_
        rw [hp2, ← hbp]
    -- the address of the replaced block is excluded; the tail keeps its addresses
      · exact List.mem_append_right _ (List.mem_cons.mpr (Or.inr hp2))
  have hsub1 : ∀ a ∈ s.fl, a ∈ (addrBlocks (⟨pre ++ (⟨b.size, false⟩ : Block) :: post,
      s.fl, s.brkLimit⟩ : HeapState)).map Prod.fst := by
    intro a ha
    have h1 := hs.flSub a ha
    rw [addrBlocks_decomp hl] at h1
    rw [addrBlocks_decomp (s := (⟨pre ++ (⟨b.size, false⟩ : Block) :: post, s.fl,
      s.brkLimit⟩ : HeapState)) rfl]
    simp only [List.map_append, List.map_cons, List.mem_append, List.mem_cons] at h1 ⊢
    exact h1
  have hsizes1 : ∀ x ∈ pre ++ (⟨b.size, false⟩ : Block) :: post,
      0 < x.size ∧ x.size % 8 = 0 := by
    intro x hx
    rcases List.mem_append.mp hx with hx1 | hx1
    · exact hs.sizesPos x (by rw [hl]; exact List.mem_append_left _ hx1)
    · rcases List.mem_cons.mp hx1 with hx2 | hx2
      · subst hx2
        exact hs.sizesPos b (by rw [hl]; simp)
      · exact hs.sizesPos x (by rw [hl]; simp [hx2])
  have hsum1 : sumSizes (pre ++ (⟨b.size, false⟩ : Block) :: post) =
      sumSizes s.blocks := by
    rw [hl, sumSizes_append, sumSizes_append, sumSizes_cons, sumSizes_cons]
  have hfull := coalesce_full (s := (⟨pre ++ (⟨b.size, false⟩ : Block) :: post, s.fl,
      s.brkLimit⟩ : HeapState)) hfind1 rfl hnotin
    (by show (pre ++ _ :: post).head? = _
        exact head?_append_left hheadpre)
    hsizes1
    (by show 8 + sumSizes (pre ++ _ :: post) ≤ s.brkLimit ∧ s.brkLimit < U32
        rw [hsum1]
        exact hs.heapBound)
    hmem1 hsub1 hs.flNodup hchains.1 hchains.2.1
  have hfree_eq : mm_free s bp =
      (coalesce (⟨pre ++ (⟨b.size, false⟩ : Block) :: post, s.fl, s.brkLimit⟩ :
        HeapState) bp).1 := by
    unfold mm_free
    rw [if_neg hbp0, hfind]
  rw [hfree_eq]
  refine ⟨hfull.1, ?_, hfull.2.2.1⟩
  rw [hfull.2.1]
  exact hsum1

theorem extend_heap_full {s : HeapState} {words : Nat} {t : HeapState} {r : Nat}
    (hs : Inv s) (hszpos : 0 < extendBytes words)
    (h : extend_heap s words = some (t, r)) :
    Inv t ∧ t.brkLimit = s.brkLimit ∧
    (∃ pre2 m post2, findBlock t r = some (pre2, m, post2) ∧ m.alloc = false ∧
      extendBytes words ≤ m.size ∧ pre2 ≠ []) ∧
    r ∈ t.fl ∧
    (∀ p ∈ addrBlocks s, p.2.alloc = true → p ∈ addrBlocks t) := by
  unfold extend_heap at h
  by_cases hc : heapSize s + extendBytes words ≤ s.brkLimit
  swap
  · rw [if_neg hc] at h
    exact absurd h (by simp)
  rw [if_pos hc] at h
  simp only at h
  have hpos : ∀ x ∈ s.blocks, 0 < x.size := fun x hx => (hs.sizesPos x hx).1
  have hesz8 : extendBytes words % 8 = 0 := by
    unfold extendBytes
    by_cases hw : words % 2 = 1
    · rw [if_pos hw]
      refine u32_mod8 ?_
      omega
    · rw [if_neg hw]
      refine u32_mod8 ?_
      omega
  have hblne : s.blocks ≠ [] := by
    intro h0
    have h1 := hs.prologue
    rw [h0] at h1
    simp at h1
  have hfind1 : findBlock (⟨s.blocks ++ [⟨extendBytes words, false⟩], s.fl,
      s.brkLimit⟩ : HeapState) (heapSize s) =
      some (s.blocks, ⟨extendBytes words, false⟩, []) := by
    have h9 := findBlock_of_decomp (s := (⟨s.blocks ++ [⟨extendBytes words, false⟩],
      s.fl, s.brkLimit⟩ : HeapState)) rfl hpos
    exact h9
  have hnotin : heapSize s ∉ s.fl := by
    intro hc2
    obtain ⟨p1, b1, p2, hf1, _, hl1, ha1⟩ := hs.fl_block hc2
    have hb1 : 0 < b1.size := hpos b1 (by rw [hl1]; simp)
    have h2 : sumSizes s.blocks = sumSizes p1 + b1.size + sumSizes p2 := by
      rw [hl1, sumSizes_append, sumSizes_cons]
      omega
    unfold heapSize at ha1
    omega
  have haddr1 : addrBlocks (⟨s.blocks ++ [⟨extendBytes words, false⟩], s.fl,
      s.brkLimit⟩ : HeapState) = addrBlocks s ++
      [(heapSize s, (⟨extendBytes words, false⟩ : Block))] := by
    show withAddrs 8 (s.blocks ++ _) = _
    rw [withAddrs_append]
    rfl
  have hmem1 : ∀ p ∈ addrBlocks (⟨s.blocks ++ [⟨extendBytes words, false⟩], s.fl,
      s.brkLimit⟩ : HeapState), p.1 ≠ heapSize s → (p.1 ∈ s.fl ↔ p.2.alloc = false) := by
    intro p hp hpne
    rw [haddr1] at hp
    rcases List.mem_append.mp hp with hp1 | hp1
    · exact hs.memIff p hp1
    · exfalso
      simp at hp1
      subst hp1
      exact hpne rfl
  have hsub1 : ∀ a ∈ s.fl, a ∈ (addrBlocks (⟨s.blocks ++ [⟨extendBytes words, false⟩],
      s.fl, s.brkLimit⟩ : HeapState)).map Prod.fst := by
    intro a ha
    rw [haddr1, List.map_append]
    exact List.mem_append_left _ (hs.flSub a ha)
  have hfull := coalesce_full (s := (⟨s.blocks ++ [⟨extendBytes words, false⟩], s.fl,
      s.brkLimit⟩ : HeapState)) hfind1 rfl hnotin
    (by show (s.blocks ++ _).head? = _
        exact head?_append_left hs.prologue)
    (by intro x hx
        rcases List.mem_append.mp hx with hx1 | hx1
        · exact hs.sizesPos x hx1
        · simp at hx1
          subst hx1
          exact ⟨hszpos, hesz8⟩)
    (by show 8 + sumSizes (s.blocks ++ _) ≤ s.brkLimit ∧ s.brkLimit < U32
        rw [sumSizes_append]
        have h2 := hs.heapBound
        unfold heapSize at hc
        refine ⟨?_, h2.2⟩
        rw [show sumSizes [(⟨extendBytes words, false⟩ : Block)] = extendBytes words
          from rfl]
        omega)
    hmem1 hsub1 hs.flNodup hs.noAdj (List.chain'_nil)
  have ht : t = (coalesce (⟨s.blocks ++ [⟨extendBytes words, false⟩], s.fl,
      s.brkLimit⟩ : HeapState) (heapSize s)).1 := by
    injection h with h1
    rw [h1]
  have hr : r = (coalesce (⟨s.blocks ++ [⟨extendBytes words, false⟩], s.fl,
      s.brkLimit⟩ : HeapState) (heapSize s)).2 := by
    injection h with h1
    rw [h1]
  subst ht
  subst hr
  refine ⟨hfull.1, hfull.2.2.1, ?_, hfull.2.2.2.1, ?_⟩
  · obtain ⟨pre2, m, post2, hf2, hm2, hsz2, hpre2⟩ := hfull.2.2.2.2.1
    exact ⟨pre2, m, post2, hf2, hm2, hsz2, hpre2⟩
  · intro p hp hpa
    refine hfull.2.2.2.2.2 p ?_ hpa
    rw [haddr1]
    exact List.mem_append_left _ hp


theorem u32sub_of_le {a b : Nat} (h : b ≤ a) (ha : a < U32) : u32sub a b = a - b := by
  unfold u32sub
  have h2 : a + U32 - b = U32 + (a - b) := by omega
  rw [h2, Nat.add_mod_left]
  exact Nat.mod_eq_of_lt (by omega)

theorem place_split_eq {s : HeapState} {bp asize : Nat} {pre post : List Block} {b : Block}
    (hfind : findBlock s bp = some (pre, b, post))
    (hprepos : ∀ x ∈ pre, 0 < x.size)
    (hcond : 24 ≤ u32sub b.size asize) (hapos : asize ≠ 0) :
    place s bp asize = ⟨pre ++ ⟨asize, true⟩ :: ⟨u32sub b.size asize, false⟩ :: post,
      (bp + asize) :: s.fl.erase bp, s.brkLimit⟩ := by
  obtain ⟨hl, hbp⟩ := findBlock_decomp hfind
  have hcs : sizeAt s bp = b.size := sizeAt_of_findBlock hfind
  have hfindA : findBlock (⟨pre ++ (⟨asize, true⟩ : Block) ::
      (⟨u32sub b.size asize, false⟩ : Block) :: post, s.fl, s.brkLimit⟩ : HeapState) bp =
      some (pre, ⟨asize, true⟩, (⟨u32sub b.size asize, false⟩ : Block) :: post) := by
    have h9 := findBlock_of_decomp (s := (⟨pre ++ (⟨asize, true⟩ : Block) ::
      (⟨u32sub b.size asize, false⟩ : Block) :: post, s.fl, s.brkLimit⟩ : HeapState))
      rfl hprepos
    rw [← hbp] at h9
    exact h9
  have hfindR : findBlock (⟨pre ++ (⟨asize, true⟩ : Block) ::
      (⟨u32sub b.size asize, false⟩ : Block) :: post, s.fl.erase bp, s.brkLimit⟩ :
      HeapState) (bp + asize) =
      some (pre ++ [⟨asize, true⟩], ⟨u32sub b.size asize, false⟩, post) := by
    have haddr : bp + asize = 8 + sumSizes (pre ++ [(⟨asize, true⟩ : Block)]) := by
      rw [sumSizes_append]
      rw [show sumSizes [(⟨asize, true⟩ : Block)] = asize from rfl]
      omega
    rw [haddr]
    refine findBlock_of_decomp ?_ ?_
    · simp
    · intro x hx
      rcases List.mem_append.mp hx with hx1 | hx1
      · exact hprepos x hx1
      · simp at hx1
        subst hx1
        show 0 < asize
        omega
  unfold place
  rw [hcs, if_pos hcond, hfind]
  dsimp only
  rw [listRemove_eq _ bp (by rw [sizeAt_of_findBlock hfindA]; exact hapos)]
  dsimp only
  rw [listInsert_eq _ (bp + asize) (by rw [allocAt_of_findBlock hfindR])]

theorem place_nosplit_eq {s : HeapState} {bp asize : Nat} {pre post : List Block}
    {b : Block}
    (hfind : findBlock s bp = some (pre, b, post))
    (hprepos : ∀ x ∈ pre, 0 < x.size)
    (hcond : ¬ 24 ≤ u32sub b.size asize) (hbpos : b.size ≠ 0) :
    place s bp asize = ⟨pre ++ ⟨b.size, true⟩ :: post, s.fl.erase bp, s.brkLimit⟩ := by
  obtain ⟨hl, hbp⟩ := findBlock_decomp hfind
  have hcs : sizeAt s bp = b.size := sizeAt_of_findBlock hfind
  have hfindA : findBlock (⟨pre ++ (⟨b.size, true⟩ : Block) :: post, s.fl,
      s.brkLimit⟩ : HeapState) bp = some (pre, ⟨b.size, true⟩, post) := by
    have h9 := findBlock_of_decomp (s := (⟨pre ++ (⟨b.size, true⟩ : Block) :: post,
      s.fl, s.brkLimit⟩ : HeapState)) rfl hprepos
    rw [← hbp] at h9
    exact h9
  unfold place
  rw [hcs, if_neg hcond, hfind]
  dsimp only
  rw [listRemove_eq _ bp (by rw [sizeAt_of_findBlock hfindA]; exact hbpos)]


theorem place_full {s : HeapState} {bp asize : Nat} {pre post : List Block} {b : Block}
    (hs : Inv s)
    (hfind : findBlock s bp = some (pre, b, post))
    (hfree : b.alloc = false)
    (hale : asize ≤ b.size) (hapos : 0 < asize) (hamod : asize % 8 = 0) :
    Inv (place s bp asize) ∧
    sumSizes (place s bp asize).blocks = sumSizes s.blocks ∧
    (place s bp asize).brkLimit = s.brkLimit ∧
    (∃ pre2 c post2, findBlock (place s bp asize) bp = some (pre2, c, post2) ∧
      c.alloc = true ∧ asize ≤ c.size ∧ c.size ≤ b.size ∧ pre2 ≠ []) ∧
    (∀ p ∈ addrBlocks s, p.2.alloc = true → p ∈ addrBlocks (place s bp asize)) := by
  obtain ⟨hl, hbp⟩ := findBlock_decomp hfind
  have hpos : ∀ x ∈ s.blocks, 0 < x.size := fun x hx => (hs.sizesPos x hx).1
  have hbmem : b ∈ s.blocks := by rw [hl]; simp
  have hbpos : 0 < b.size := hpos b hbmem
  have hbmod : b.size % 8 = 0 := (hs.sizesPos b hbmem).2
  have hblt : b.size < U32 := hs.size_lt_U32 hbmem
  have hsub : u32sub b.size asize = b.size - asize := u32sub_of_le hale hblt
  have hprepos : ∀ x ∈ pre, 0 < x.size := by
    intro x hx
    exact hpos x (by rw [hl]; exact List.mem_append_left _ hx)
  have hpre_ne : pre ≠ [] := by
    intro h0
    subst h0
    have h1 := hs.prologue
    rw [hl] at h1
    simp at h1
    rw [h1] at hfree
    simp at hfree
  have hheadpre : pre.head? = some ⟨8, true⟩ := by
    cases pre with
    | nil => exact absurd rfl hpre_ne
    | cons p0 ps =>
      have h0 := hs.prologue
      rw [hl] at h0
      simpa using h0
  have hin : bp ∈ s.fl := (hs.memIff (bp, b) (findBlock_mem hfind)).mpr hfree
  have hchains := @chain'_decomp pre post b (by
    rw [← hl]
    exact hs.noAdj)
  have hold : addrBlocks s = withAddrs 8 pre ++ (bp, b) ::
      withAddrs (bp + b.size) post := by
    rw [addrBlocks_decomp hl, ← hbp]
  have hpre_lt : ∀ x c, (x, c) ∈ withAddrs 8 pre → x < bp := by
    intro x c hx
    obtain ⟨h1, h2⟩ := mem_withAddrs_bounds hx
    have hc : 0 < c.size := hprepos c (mem_withAddrs_block hx)
    omega
  have hpost_ge : ∀ x c, (x, c) ∈ withAddrs (bp + b.size) post → bp + b.size ≤ x :=
    fun x c hx => (mem_withAddrs_bounds hx).1
  have hsum : sumSizes s.blocks = sumSizes pre + b.size + sumSizes post := by
    rw [hl, sumSizes_append, sumSizes_cons]
    omega
  by_cases hsp : 24 ≤ u32sub b.size asize
  · rw [place_split_eq hfind hprepos hsp (by omega)]
    have hrlt : asize + 24 ≤ b.size := by omega
    have hnew : addrBlocks (⟨pre ++ (⟨asize, true⟩ : Block) ::
        (⟨u32sub b.size asize, false⟩ : Block) :: post,
        (bp + asize) :: s.fl.erase bp, s.brkLimit⟩ : HeapState) =
        withAddrs 8 pre ++ (bp, (⟨asize, true⟩ : Block)) ::
          ((bp + asize, (⟨u32sub b.size asize, false⟩ : Block)) ::
            withAddrs (bp + b.size) post) := by
      rw [addrBlocks_decomp (s := (⟨pre ++ (⟨asize, true⟩ : Block) ::
        (⟨u32sub b.size asize, false⟩ : Block) :: post,
        (bp + asize) :: s.fl.erase bp, s.brkLimit⟩ : HeapState)) rfl, ← hbp]
      have h1 : bp + Block.size ⟨asize, true⟩ = bp + asize := rfl
      rw [h1]
      have h2 : withAddrs (bp + asize)
          ((⟨u32sub b.size asize, false⟩ : Block) :: post) =
          (bp + asize, (⟨u32sub b.size asize, false⟩ : Block)) ::
            withAddrs (bp + asize + (b.size - asize)) post := by
        rw [show withAddrs (bp + asize)
          ((⟨u32sub b.size asize, false⟩ : Block) :: post) =
          (bp + asize, (⟨u32sub b.size asize, false⟩ : Block)) ::
            withAddrs (bp + asize + u32sub b.size asize) post from rfl, hsub]
      rw [h2, show bp + asize + (b.size - asize) = bp + b.size by omega]
    have hnotin2 : bp + asize ∉ s.fl := by
      intro hc
      have h1 := hs.flSub _ hc
      rw [hold] at h1
      simp only [List.map_append, List.map_cons, List.mem_append, List.mem_cons] at h1
      rcases h1 with h1 | h1 | h1
      · simp only [List.mem_map] at h1
        obtain ⟨⟨x, c⟩, hxc, hx⟩ := h1
        have := hpre_lt x c hxc
        simp at hx
        omega
      · omega
      · simp only [List.mem_map] at h1
        obtain ⟨⟨x, c⟩, hxc, hx⟩ := h1
        have := hpost_ge x c hxc
        simp at hx
        omega
    refine ⟨⟨?_, ?_, ?_, ?_, ?_, ?_, ?_⟩, ?_, rfl, ?_, ?_⟩
    · show (pre ++ _ :: _ :: post).head? = some ⟨8, true⟩
      exact head?_append_left hheadpre
    · intro x hx
      rcases List.mem_append.mp hx with hx1 | hx1
      · exact hs.sizesPos x (by rw [hl]; exact List.mem_append_left _ hx1)
      · rcases List.mem_cons.mp hx1 with hx2 | hx2
        · subst hx2
          exact ⟨hapos, hamod⟩
        · rcases List.mem_cons.mp hx2 with hx3 | hx3
          · subst hx3
            refine ⟨by show 0 < u32sub b.size asize; omega, ?_⟩
            show u32sub b.size asize % 8 = 0
            rw [hsub]
            omega
          · exact hs.sizesPos x (by rw [hl]; simp [hx3])
    · show 8 + sumSizes (pre ++ _ :: _ :: post) ≤ s.brkLimit ∧ s.brkLimit < U32
      rw [sumSizes_append, sumSizes_cons, sumSizes_cons]
      rw [show Block.size ⟨asize, true⟩ = asize from rfl]
      rw [show Block.size ⟨u32sub b.size asize, false⟩ = u32sub b.size asize from rfl]
      rw [hsub]
      obtain ⟨hb1, hb2⟩ := hs.heapBound
      unfold heapSize at hb1
      exact ⟨by omega, hb2⟩
    · intro p hp
      rw [hnew] at hp
      obtain ⟨x, c⟩ := p
      show x ∈ (bp + asize) :: s.fl.erase bp ↔ c.alloc = false
      rcases List.mem_append.mp hp with hp1 | hp1
      · have hxlt : x < bp := hpre_lt x c hp1
        have hmold := (hs.memIff (x, c) (by rw [hold]; exact List.mem_append_left _ hp1))
        simp only [List.mem_cons, hs.flNodup.mem_erase_iff]
        constructor
        · rintro (h | ⟨_, h⟩)
          · omega
          · exact hmold.mp h
        · intro h
          exact Or.inr ⟨by omega, hmold.mpr h⟩
      · rcases List.mem_cons.mp hp1 with hp2 | hp2
        · injection hp2 with hp3 hp4
          rw [hp3, hp4]
          simp only [List.mem_cons, hs.flNodup.mem_erase_iff]
          constructor
          · rintro (h | ⟨h, _⟩)
            · omega
            · exact absurd rfl h
          · intro h
            simp at h
        · rcases List.mem_cons.mp hp2 with hp3 | hp3
          · injection hp3 with hp4 hp5
            subst hp4
            subst hp5
            simp
          · have hxge : bp + b.size ≤ x := hpost_ge x c hp3
            have hmold := (hs.memIff (x, c) (by
              rw [hold]
              exact List.mem_append_right _ (List.mem_cons.mpr (Or.inr hp3))))
            simp only [List.mem_cons, hs.flNodup.mem_erase_iff]
            constructor
            · rintro (h | ⟨_, h⟩)
              · omega
              · exact hmold.mp h
            · intro h
              exact Or.inr ⟨by omega, hmold.mpr h⟩
    · intro a ha
      show a ∈ List.map Prod.fst (addrBlocks _)
      rw [hnew]
      simp only [List.map_append, List.map_cons, List.mem_append, List.mem_cons]
      rcases List.mem_cons.mp ha with ha1 | ha1
      · exact Or.inr (Or.inr (Or.inl ha1))
      · obtain ⟨hne, hain⟩ := hs.flNodup.mem_erase_iff.mp ha1
        have h1 := hs.flSub a hain
        rw [hold] at h1
        simp only [List.map_append, List.map_cons, List.mem_append, List.mem_cons] at h1
        rcases h1 with h1 | h1 | h1
        · exact Or.inl h1
        · exact absurd h1 hne
        · exact Or.inr (Or.inr (Or.inr h1))
    · refine List.nodup_cons.mpr ⟨?_, hs.flNodup.erase _⟩
      intro hc
      exact hnotin2 (List.erase_subset _ _ hc)
    · show List.Chain' adjOk (pre ++ _ :: _ :: post)
      refine chain'_build hchains.1 ?_ ?_ ?_
      · refine List.chain'_cons'.mpr ⟨?_, hchains.2.1⟩
        intro y hy
        right
        have h1 := hchains.2.2.2 y hy
        unfold adjOk at h1
        rcases h1 with h1 | h1
        · rw [hfree] at h1
          exact absurd h1 (by simp)
        · exact h1
      · intro y hy
        right
        rfl
      · intro y hy
        left
        rfl
    · show sumSizes (pre ++ _ :: _ :: post) = _
      rw [sumSizes_append, sumSizes_cons, sumSizes_cons]
      rw [show Block.size ⟨asize, true⟩ = asize from rfl]
      rw [show Block.size ⟨u32sub b.size asize, false⟩ = u32sub b.size asize from rfl]
      rw [hsub, hsum]
      omega
    · refine ⟨pre, ⟨asize, true⟩, (⟨u32sub b.size asize, false⟩ : Block) :: post,
        ?_, rfl, le_refl _, hale, hpre_ne⟩
      have h9 := findBlock_of_decomp (s := (⟨pre ++ (⟨asize, true⟩ : Block) ::
        (⟨u32sub b.size asize, false⟩ : Block) :: post,
        (bp + asize) :: s.fl.erase bp, s.brkLimit⟩ : HeapState)) rfl hprepos
      rw [← hbp] at h9
      exact h9
    · intro p hp hpa
      obtain ⟨x, c⟩ := p
      rw [hold] at hp
      show (x, c) ∈ addrBlocks _
      rw [hnew]
      rcases List.mem_append.mp hp with hp1 | hp1
      · exact List.mem_append_left _ hp1
      · rcases List.mem_cons.mp hp1 with hp2 | hp2
        · exfalso
          injection hp2 with hp3 hp4
          subst hp4
          rw [hfree] at hpa
          simp at hpa
        · refine List.mem_append_right _ ?_
          exact List.mem_cons.mpr (Or.inr (List.mem_cons.mpr (Or.inr hp2)))
  · rw [place_nosplit_eq hfind hprepos hsp (by omega)]
    have hnew : addrBlocks (⟨pre ++ (⟨b.size, true⟩ : Block) :: post,
        s.fl.erase bp, s.brkLimit⟩ : HeapState) =
        withAddrs 8 pre ++ (bp, (⟨b.size, true⟩ : Block)) ::
          withAddrs (bp + b.size) post := by
      rw [addrBlocks_decomp (s := (⟨pre ++ (⟨b.size, true⟩ : Block) :: post,
        s.fl.erase bp, s.brkLimit⟩ : HeapState)) rfl, ← hbp]
    refine ⟨⟨?_, ?_, ?_, ?_, ?_, ?_, ?_⟩, ?_, rfl, ?_, ?_⟩
    · show (pre ++ _ :: post).head? = some ⟨8, true⟩
      exact head?_append_left hheadpre
    · intro x hx
      rcases List.mem_append.mp hx with hx1 | hx1
      · exact hs.sizesPos x (by rw [hl]; exact List.mem_append_left _ hx1)
      · rcases List.mem_cons.mp hx1 with hx2 | hx2
        · subst hx2
          exact ⟨hbpos, hbmod⟩
        · exact hs.sizesPos x (by rw [hl]; simp [hx2])
    · show 8 + sumSizes (pre ++ _ :: post) ≤ s.brkLimit ∧ s.brkLimit < U32
      rw [sumSizes_append, sumSizes_cons]
      rw [show Block.size ⟨b.size, true⟩ = b.size from rfl]
      obtain ⟨hb1, hb2⟩ := hs.heapBound
      unfold heapSize at hb1
      exact ⟨by omega, hb2⟩
    · intro p hp
      rw [hnew] at hp
      obtain ⟨x, c⟩ := p
      show x ∈ s.fl.erase bp ↔ c.alloc = false
      rcases List.mem_append.mp hp with hp1 | hp1
      · have hxlt : x < bp := hpre_lt x c hp1
        have hmold := (hs.memIff (x, c) (by rw [hold]; exact List.mem_append_left _ hp1))
        rw [hs.flNodup.mem_erase_iff]
        constructor
        · rintro ⟨_, h⟩
          exact hmold.mp h
        · intro h
          exact ⟨by omega, hmold.mpr h⟩
      · rcases List.mem_cons.mp hp1 with hp2 | hp2
        · injection hp2 with hp3 hp4
          rw [hp3, hp4]
          rw [hs.flNodup.mem_erase_iff]
          constructor
          · rintro ⟨h, _⟩
            exact absurd rfl h
          · intro h
            simp at h
        · have hxge : bp + b.size ≤ x := hpost_ge x c hp2
          have hmold := (hs.memIff (x, c) (by
            rw [hold]
            exact List.mem_append_right _ (List.mem_cons.mpr (Or.inr hp2))))
          rw [hs.flNodup.mem_erase_iff]
          constructor
          · rintro ⟨_, h⟩
            exact hmold.mp h
          · intro h
            exact ⟨by omega, hmold.mpr h⟩
    · intro a ha
      show a ∈ List.map Prod.fst (addrBlocks _)
      rw [hnew]
      obtain ⟨hne, hain⟩ := hs.flNodup.mem_erase_iff.mp ha
      have h1 := hs.flSub a hain
      rw [hold] at h1
      simp only [List.map_append, List.map_cons, List.mem_append, List.mem_cons] at h1 ⊢
      exact h1
    · exact hs.flNodup.erase _
    · show List.Chain' adjOk (pre ++ _ :: post)
      refine chain'_build hchains.1 hchains.2.1 ?_ ?_
      · intro y hy
        right
        rfl
      · intro y hy
        left
        rfl
    · show sumSizes (pre ++ _ :: post) = _
      rw [sumSizes_append, sumSizes_cons]
      rw [show Block.size ⟨b.size, true⟩ = b.size from rfl]
      rw [hsum]
      omega
    · refine ⟨pre, ⟨b.size, true⟩, post, ?_, rfl, hale, le_refl _, hpre_ne⟩
      have h9 := findBlock_of_decomp (s := (⟨pre ++ (⟨b.size, true⟩ : Block) :: post,
        s.fl.erase bp, s.brkLimit⟩ : HeapState)) rfl hprepos
      rw [← hbp] at h9
      exact h9
    · intro p hp hpa
      obtain ⟨x, c⟩ := p
      rw [hold] at hp
      show (x, c) ∈ addrBlocks _
      rw [hnew]
      rcases List.mem_append.mp hp with hp1 | hp1
      · exact List.mem_append_left _ hp1
      · rcases List.mem_cons.mp hp1 with hp2 | hp2
        · exfalso
          injection hp2 with hp3 hp4
          subst hp4
          rw [hfree] at hpa
          simp at hpa
        · exact List.mem_append_right _ (List.mem_cons.mpr (Or.inr hp2))


theorem normSize_mod8 (size : Nat) : normSize size % 8 = 0 := by
  unfold normSize
  by_cases h1 : size = 448
  · rw [if_pos h1]
  · rw [if_neg h1]
    by_cases h2 : size = 112
    · rw [if_pos h2]
    · rw [if_neg h2]
      by_cases h3 : size ≤ 8
      · rw [if_pos h3]
      · rw [if_neg h3]
        by_cases h4 : size % 8 ≠ 0
        · rw [if_pos h4]
          refine u32_mod8 ?_
          omega
        · rw [if_neg h4]
          omega

theorem normSize_spec {size : Nat} (h1 : 0 < size) (h2 : size ≤ 2147483624) :
    size ≤ normSize size ∧ 16 ≤ normSize size ∧ normSize size + 8 < 2147483648 := by
  unfold normSize
  by_cases ha : size = 448
  · rw [if_pos ha]
    omega
  · rw [if_neg ha]
    by_cases hb : size = 112
    · rw [if_pos hb]
      omega
    · rw [if_neg hb]
      by_cases hc : size ≤ 8
      · rw [if_pos hc]
        omega
      · rw [if_neg hc]
        by_cases hd : size % 8 ≠ 0
        · rw [if_pos hd]
          rw [u32_small (by show (size / 8 + 1) * 8 < 4294967296; omega)]
          omega
        · rw [if_neg hd]
          omega

theorem normSize_pos_mod8 {size : Nat} (h0 : size ≠ 0)
    (hguard : normSize size + 8 < 2147483648) :
    0 < normSize size + 8 ∧ (normSize size + 8) % 8 = 0 := by
  have := normSize_mod8 size
  omega

theorem extendSizeOf_small {asize : Nat} (h : asize < 2147483648) :
    extendSizeOf asize = max asize 4096 := by
  unfold extendSizeOf toInt32
  rw [if_pos h, if_pos (by norm_num)]
  omega

theorem extendBytes_of_div4 {n : Nat} (h8 : n % 8 = 0) (hlt : n < U32) :
    extendBytes (n / 4) = n := by
  unfold extendBytes
  rw [if_neg (by omega)]
  rw [show n / 4 * 4 = n by omega]
  exact u32_small hlt

theorem mm_malloc_full {s : HeapState} {size : Nat}
    (hs : Inv s) (hguard : normSize size + 8 < 2147483648) :
    Inv (mm_malloc s size).1 ∧
    (mm_malloc s size).1.brkLimit = s.brkLimit ∧
    (∀ bp, (mm_malloc s size).2 = some bp →
      ∃ pre c post, findBlock (mm_malloc s size).1 bp = some (pre, c, post) ∧
        c.alloc = true ∧ normSize size + 8 ≤ c.size ∧ pre ≠ []) ∧
    ((mm_malloc s size).2 = none → (mm_malloc s size).1 = s) ∧
    (∀ p ∈ addrBlocks s, p.2.alloc = true → p ∈ addrBlocks (mm_malloc s size).1) := by
  by_cases h0 : size = 0
  · have heq : mm_malloc s size = (s, none) := by
      unfold mm_malloc
      rw [if_pos h0]
    rw [heq]
    exact ⟨hs, rfl, fun bp h => by simp at h, fun _ => rfl, fun p hp _ => hp⟩
  have hasize : asizeOf size = normSize size + 8 := by
    refine u32_small ?_
    show normSize size + 8 < 4294967296
    omega
  have hapos : 0 < asizeOf size := by
    rw [hasize]
    omega
  have hamod : asizeOf size % 8 = 0 := by
    rw [hasize]
    have := normSize_mod8 size
    omega
  cases hff : find_fit s (asizeOf size) with
  | some bp =>
    have heq : mm_malloc s size = (place s bp (asizeOf size), some bp) := by
      unfold mm_malloc
      rw [if_neg h0]
      dsimp only
      rw [hff]
    obtain ⟨hin, hle⟩ := find_fit_sound hff
    obtain ⟨pre, b, post, hfindb, hfree, hl, haddr⟩ := hs.fl_block hin
    rw [sizeAt_of_findBlock hfindb] at hle
    have hpf := place_full hs hfindb hfree hle hapos hamod
    rw [heq]
    refine ⟨hpf.1, hpf.2.2.1, ?_, fun h => by simp at h, hpf.2.2.2.2⟩
    intro bp2 hbp2
    injection hbp2 with hbp2
    subst hbp2
    obtain ⟨pre2, c, post2, hf2, hc2, hsz2, hub2, hne2⟩ := hpf.2.2.2.1
    exact ⟨pre2, c, post2, hf2, hc2, by omega, hne2⟩
  | none =>
    have hext8 : extendSizeOf (asizeOf size) % 8 = 0 := by
      rw [extendSizeOf_small (by omega)]
      rcases Nat.le_total (asizeOf size) 4096 with h | h
      · rw [Nat.max_eq_right h]
      · rw [Nat.max_eq_left h]
        exact hamod
    have hextlt : extendSizeOf (asizeOf size) < U32 := by
      rw [extendSizeOf_small (by omega)]
      show max (asizeOf size) 4096 < 4294967296
      omega
    have hbytes : extendBytes (extendSizeOf (asizeOf size) / 4) =
        extendSizeOf (asizeOf size) := extendBytes_of_div4 hext8 hextlt
    have hbpos : 0 < extendBytes (extendSizeOf (asizeOf size) / 4) := by
      rw [hbytes, extendSizeOf_small (by omega)]
      omega
    cases hex : extend_heap s (extendSizeOf (asizeOf size) / 4) with
    | none =>
      have heq : mm_malloc s size = (s, none) := by
        unfold mm_malloc
        rw [if_neg h0]
        dsimp only
        rw [hff, hex]
      rw [heq]
      exact ⟨hs, rfl, fun bp h => by simp at h, fun _ => rfl, fun p hp _ => hp⟩
    | some pr =>
      obtain ⟨s1, bp⟩ := pr
      have heq : mm_malloc s size = (place s1 bp (asizeOf size), some bp) := by
        unfold mm_malloc
        rw [if_neg h0]
        dsimp only
        rw [hff, hex]
      have hef := extend_heap_full hs hbpos hex
      obtain ⟨pre2, m, post2, hf2, hm2, hsz2, hne2⟩ := hef.2.2.1
      have hle : asizeOf size ≤ m.size := by
        rw [hbytes, extendSizeOf_small (by omega)] at hsz2
        omega
      have hpf := place_full hef.1 hf2 hm2 hle hapos hamod
      rw [heq]
      refine ⟨hpf.1, by rw [hpf.2.2.1, hef.2.1], ?_, fun h => by simp at h, ?_⟩
      · intro bp2 hbp2
        injection hbp2 with hbp2
        subst hbp2
        obtain ⟨pre3, c, post3, hf3, hc3, hsz3, hub3, hne3⟩ := hpf.2.2.2.1
        exact ⟨pre3, c, post3, hf3, hc3, by omega, hne3⟩
      · intro p hp hpa
        exact hpf.2.2.2.2 p (hef.2.2.2.2 p hp hpa) hpa


theorem realloc_combine_inv {s : HeapState} {ptr : Nat} {pre rest : List Block}
    {b nb : Block}
    (hs : Inv s)
    (hfind : findBlock s ptr = some (pre, b, nb :: rest))
    (halloc : b.alloc = true) (hpre_ne : pre ≠ []) (hnb : nb.alloc = false) :
    Inv (⟨pre ++ ⟨u32 (b.size + nb.size), true⟩ :: rest,
      s.fl.erase (ptr + b.size), s.brkLimit⟩ : HeapState) := by
  obtain ⟨hl, hbp⟩ := findBlock_decomp hfind
  have hpos : ∀ x ∈ s.blocks, 0 < x.size := fun x hx => (hs.sizesPos x hx).1
  have hbmem : b ∈ s.blocks := by rw [hl]; simp
  have hnbmem : nb ∈ s.blocks := by rw [hl]; simp
  have hbpos : 0 < b.size := hpos b hbmem
  have hnbpos : 0 < nb.size := hpos nb hnbmem
  have hsum : sumSizes s.blocks = sumSizes pre + (b.size + nb.size) + sumSizes rest := by
    rw [hl, sumSizes_append, sumSizes_cons, sumSizes_cons]
    omega
  have hlt : b.size + nb.size < U32 := by
    obtain ⟨hb1, hb2⟩ := hs.heapBound
    unfold heapSize at hb1
    omega
  have hu : u32 (b.size + nb.size) = b.size + nb.size := u32_small hlt
  have hheadpre : pre.head? = some ⟨8, true⟩ := by
    cases pre with
    | nil => exact absurd rfl hpre_ne
    | cons p0 ps =>
      have h0 := hs.prologue
      rw [hl] at h0
      simpa using h0
  have hold : addrBlocks s = withAddrs 8 pre ++ (ptr, b) ::
      ((ptr + b.size, nb) :: withAddrs (ptr + b.size + nb.size) rest) := by
    rw [addrBlocks_decomp hl, ← hbp]
    rfl
  have hnew : addrBlocks (⟨pre ++ ⟨u32 (b.size + nb.size), true⟩ :: rest,
      s.fl.erase (ptr + b.size), s.brkLimit⟩ : HeapState) =
      withAddrs 8 pre ++ (ptr, (⟨u32 (b.size + nb.size), true⟩ : Block)) ::
        withAddrs (ptr + b.size + nb.size) rest := by
    rw [addrBlocks_decomp (s := (⟨pre ++ ⟨u32 (b.size + nb.size), true⟩ :: rest,
      s.fl.erase (ptr + b.size), s.brkLimit⟩ : HeapState)) rfl, ← hbp]
    have hx : ptr + Block.size ⟨u32 (b.size + nb.size), true⟩ =
        ptr + b.size + nb.size := by
      show ptr + u32 (b.size + nb.size) = ptr + b.size + nb.size
      rw [hu]
      omega
    rw [hx]
  have hpre_lt : ∀ x c, (x, c) ∈ withAddrs 8 pre → x < ptr := by
    intro x c hx
    obtain ⟨h1, h2⟩ := mem_withAddrs_bounds hx
    have hc : 0 < c.size := hpos c (by
      rw [hl]
      exact List.mem_append_left _ (mem_withAddrs_block hx))
    omega
  have hrest_ge : ∀ x c, (x, c) ∈ withAddrs (ptr + b.size + nb.size) rest →
      ptr + b.size + nb.size ≤ x :=
    fun x c hx => (mem_withAddrs_bounds hx).1
  have hnotin : ptr ∉ s.fl := by
    intro hc
    have h0 := (hs.memIff (ptr, b) (findBlock_mem hfind)).mp hc
    rw [halloc] at h0
    simp at h0
  have hchains := @chain'_decomp pre (nb :: rest) b (by
    rw [← hl]
    exact hs.noAdj)
  have hct := (List.chain'_cons'.mp hchains.2.1).2
  refine ⟨?_, ?_, ?_, ?_, ?_, hs.flNodup.erase _, ?_⟩
  · show (pre ++ _ :: rest).head? = some ⟨8, true⟩
    exact head?_append_left hheadpre
  · intro x hx
    rcases List.mem_append.mp hx with hx1 | hx1
    · exact hs.sizesPos x (by rw [hl]; exact List.mem_append_left _ hx1)
    · rcases List.mem_cons.mp hx1 with hx2 | hx2
      · subst hx2
        refine ⟨by show 0 < u32 (b.size + nb.size); rw [hu]; omega, ?_⟩
        show u32 (b.size + nb.size) % 8 = 0
        refine u32_mod8 ?_
        have m1 := (hs.sizesPos b hbmem).2
        have m2 := (hs.sizesPos nb hnbmem).2
        omega
      · exact hs.sizesPos x (by rw [hl]; simp [hx2])
  · show 8 + sumSizes (pre ++ _ :: rest) ≤ s.brkLimit ∧ s.brkLimit < U32
    rw [sumSizes_append, sumSizes_cons]
    rw [show Block.size ⟨u32 (b.size + nb.size), true⟩ = u32 (b.size + nb.size)
      from rfl, hu]
    obtain ⟨hb1, hb2⟩ := hs.heapBound
    unfold heapSize at hb1
    exact ⟨by omega, hb2⟩
  · intro p hp
    rw [hnew] at hp
    obtain ⟨x, c⟩ := p
    show x ∈ s.fl.erase (ptr + b.size) ↔ c.alloc = false
    rcases List.mem_append.mp hp with hp1 | hp1
    · have hxlt : x < ptr := hpre_lt x c hp1
      have hmold := hs.memIff (x, c) (by rw [hold]; exact List.mem_append_left _ hp1)
      rw [hs.flNodup.mem_erase_iff]
      constructor
      · rintro ⟨_, h⟩
        exact hmold.mp h
      · intro h
        exact ⟨by omega, hmold.mpr h⟩
    · rcases List.mem_cons.mp hp1 with hp2 | hp2
      · injection hp2 with hp3 hp4
        rw [hp3, hp4]
        rw [hs.flNodup.mem_erase_iff]
        constructor
        · rintro ⟨_, h⟩
          exact absurd h hnotin
        · intro h
          simp at h
      · have hxge : ptr + b.size + nb.size ≤ x := hrest_ge x c hp2
        have hmold := hs.memIff (x, c) (by
          rw [hold]
          refine List.mem_append_right _ ?_
          simp [hp2])
        rw [hs.flNodup.mem_erase_iff]
        constructor
        · rintro ⟨_, h⟩
          exact hmold.mp h
        · intro h
          exact ⟨by omega, hmold.mpr h⟩
  · intro a ha
    show a ∈ List.map Prod.fst (addrBlocks _)
    rw [hnew]
    obtain ⟨hne, hain⟩ := hs.flNodup.mem_erase_iff.mp ha
    have h1 := hs.flSub a hain
    rw [hold] at h1
    simp only [List.map_append, List.map_cons, List.mem_append, List.mem_cons] at h1 ⊢
    rcases h1 with h1 | h1 | h1 | h1
    · exact Or.inl h1
    · exact Or.inr (Or.inl h1)
    · exact absurd h1 hne
    · exact Or.inr (Or.inr h1)
  · show List.Chain' adjOk (pre ++ _ :: rest)
    refine chain'_build hchains.1 hct ?_ ?_
    · intro y hy
      right
      rfl
    · intro y hy
      left
      rfl

theorem mm_realloc_full {s : HeapState} {ptr size : Nat} {pre post : List Block}
    {b : Block}
    (hs : Inv s) (hfind : findBlock s ptr = some (pre, b, post))
    (halloc : b.alloc = true) (hpre_ne : pre ≠ [])
    (hguard : normSize size + 8 < 2147483648) :
    Inv (mm_realloc s ptr size).1 ∧ (mm_realloc s ptr size).1.brkLimit = s.brkLimit := by
  obtain ⟨hl, hbp⟩ := findBlock_decomp hfind
  have hpos : ∀ x ∈ s.blocks, 0 < x.size := fun x hx => (hs.sizesPos x hx).1
  by_cases h1 : u32 (size + 8) < b.size
  · have heq : mm_realloc s ptr size = (s, some ptr) := by
      unfold mm_realloc
      rw [hfind]
      dsimp only
      rw [if_pos h1]
    rw [heq]
    exact ⟨hs, rfl⟩
  · by_cases h2 : headAlloc post = false ∧
        u32 (size + 8) ≤ u32 (b.size + headSize post)
    · cases post with
      | nil =>
        exfalso
        have := h2.1
        simp [headAlloc] at this
      | cons nb rest =>
        have hnb : nb.alloc = false := h2.1
        have hnext : findBlock s (ptr + b.size) = some (pre ++ [b], nb, rest) :=
          findBlock_next hfind hpos
        have hnbpos : nb.size ≠ 0 := by
          have := hpos nb (by rw [hl]; simp)
          omega
        have heq : mm_realloc s ptr size =
            ((⟨pre ++ ⟨u32 (b.size + nb.size), true⟩ :: rest,
              s.fl.erase (ptr + b.size), s.brkLimit⟩ : HeapState), some ptr) := by
          unfold mm_realloc
          rw [hfind]
          dsimp only
          rw [if_neg h1, if_pos h2]
          rw [listRemove_eq _ (ptr + b.size) (by
            rw [sizeAt_of_findBlock hnext]
            exact hnbpos)]
          rfl
        rw [heq]
        exact ⟨realloc_combine_inv hs hfind halloc hpre_ne hnb, rfl⟩
    · cases hmm : mm_malloc s size with
      | mk s1 r =>
        have hmf := mm_malloc_full hs hguard
        rw [hmm] at hmf
        cases r with
        | none =>
          have heq : mm_realloc s ptr size = (s1, none) := by
            unfold mm_realloc
            rw [hfind]
            dsimp only
            rw [if_neg h1, if_neg h2, hmm]
          rw [heq]
          exact ⟨hmf.1, hmf.2.1⟩
        | some np =>
          have heq : mm_realloc s ptr size = (mm_free s1 ptr, some np) := by
            unfold mm_realloc
            rw [hfind]
            dsimp only
            rw [if_neg h1, if_neg h2, hmm]
          rw [heq]
          have hpmem : (ptr, b) ∈ addrBlocks s1 :=
            hmf.2.2.2.2 (ptr, b) (findBlock_mem hfind) halloc
          obtain ⟨pre1, post1, hfind1, hl1, haddr1⟩ :=
            mem_addrBlocks_findBlock (fun x hx => (hmf.1.sizesPos x hx).1) hpmem
          have hpre1_ne : pre1 ≠ [] := by
            intro h0
            subst h0
            rw [sumSizes_nil] at haddr1
            cases pre with
            | nil => exact hpre_ne rfl
            | cons p0 ps =>
              have hp0 : 0 < p0.size := hpos p0 (by rw [hl]; simp)
              have : sumSizes (p0 :: ps) = p0.size + sumSizes ps := sumSizes_cons _ _
              omega
          have hff := mm_free_full hmf.1 hfind1 halloc hpre1_ne
          exact ⟨hff.1, by rw [hff.2.2, hmf.2.1]⟩

theorem mm_init_full {bl : Nat} {s : HeapState} (hbl : bl < U32)
    (h : mm_init bl = some s) : Inv s := by
  unfold mm_init at h
  by_cases h16 : 16 ≤ bl
  swap
  · rw [if_neg h16] at h
    exact absurd h (by simp)
  rw [if_pos h16] at h
  have hs0 : Inv (⟨[⟨8, true⟩], [], bl⟩ : HeapState) := by
    refine ⟨rfl, ?_, ?_, ?_, ?_, List.nodup_nil, ?_⟩
    · intro x hx
      simp at hx
      subst hx
      exact ⟨by decide, by decide⟩
    · show 8 + sumSizes [⟨8, true⟩] ≤ bl ∧ bl < U32
      rw [show sumSizes [(⟨8, true⟩ : Block)] = 8 from rfl]
      exact ⟨by omega, hbl⟩
    · intro p hp
      show p.1 ∈ ([] : List Nat) ↔ p.2.alloc = false
      simp only [addrBlocks, withAddrs] at hp
      rcases List.mem_cons.mp hp with hp1 | hp1
      · rw [hp1]
        simp
      · simp at hp1
    · intro a ha
      simp at ha
    · show List.Chain' adjOk [⟨8, true⟩]
      exact List.chain'_singleton _
  cases hex : extend_heap (⟨[⟨8, true⟩], [], bl⟩ : HeapState) 1024 with
  | none =>
    rw [hex] at h
    exact absurd h (by simp)
  | some pr =>
    obtain ⟨s1, r⟩ := pr
    rw [hex] at h
    injection h with h
    subst h
    exact (extend_heap_full hs0 (by show 0 < extendBytes 1024; decide) hex).1

/-- Every reachable state satisfies the full allocator invariant. -/
theorem reachable_inv {s : HeapState} (h : Reachable s) : Inv s := by
  induction h with
  | init bl s hbl hinit => exact mm_init_full hbl hinit
  | malloc s size hr hg ih => exact (mm_malloc_full ih hg).1
  | free s a pre b post hr hfind halloc hne ih =>
    exact (mm_free_full ih hfind halloc hne).1
  | freeNull s hr ih =>
    show Inv (mm_free s 0)
    unfold mm_free
    rw [if_pos rfl]
    exact ih
  | realloc s a size pre b post hr hfind halloc hne hg ih =>
    exact (mm_realloc_full ih hfind halloc hne hg).1


/-! ### Helper facts for the claim theorems -/

/-- The initial state `iS` satisfies the allocator invariant. -/
theorem inv_iS : Inv iS :=
  ⟨by decide, by decide, by decide, by decide, by decide, by decide,
    List.Chain.cons (Or.inl rfl) List.Chain.nil⟩

/-- On a non-zero request, a null result from `mm_malloc` can only come from
a failed heap extension. -/
theorem mm_malloc_none_extend {s : HeapState} {size : Nat} (h0 : size ≠ 0)
    (hnone : (mm_malloc s size).2 = none) :
    extend_heap s (extendSizeOf (asizeOf size) / 4) = none := by
  cases hff : find_fit s (asizeOf size) with
  | some bp =>
    have heq : mm_malloc s size = (place s bp (asizeOf size), some bp) := by
      unfold mm_malloc
      rw [if_neg h0]
      dsimp only
      rw [hff]
    rw [heq] at hnone
    simp at hnone
  | none =>
    cases hex : extend_heap s (extendSizeOf (asizeOf size) / 4) with
    | none => rfl
    | some pr =>
      obtain ⟨s1, bp⟩ := pr
      have heq : mm_malloc s size = (place s1 bp (asizeOf size), some bp) := by
        unfold mm_malloc
        rw [if_neg h0]
        dsimp only
        rw [hff, hex]
      rw [heq] at hnone
      simp at hnone

/-! ### The claims -/

/-- Claim C1 (counterexample): the request `n = 4294967289` is non-zero and
`mm_malloc` returns a non-null payload address, yet the returned block's
total size is 8 bytes, so its usable payload (total minus the 8 bytes of
header/footer overhead) is 0 bytes, far below `n`: the 32-bit round-up
`(size/8 + 1) * 8` wraps to 0 for sizes above `0xFFFFFFF0`, so the claim
fails for huge requests. -/
theorem c1_counterexample :
    (mm_malloc iS 4294967289).2 = some 16 ∧
    sizeAt (mm_malloc iS 4294967289).1 16 = 8 ∧
    sizeAt (mm_malloc iS 4294967289).1 16 - 8 < 4294967289 :=
  ⟨by decide, by decide, by decide⟩

/-- Claim C1 (amended): for non-zero requests up to 2147483624 bytes (so the
normalized block size stays below 2^31 and the 32-bit arithmetic cannot
wrap), every non-null result of `mm_malloc` points at an allocated block of
total size at least the normalized size plus the 8 bytes of overhead, hence
of usable size at least `size`; and a null result happens exactly on the
path where the arena-growth primitive fails, leaving the state unchanged. -/
theorem c1_malloc_spec {s : HeapState} {size : Nat}
    (hs : Inv s) (h1 : 0 < size) (h2 : size ≤ 2147483624) :
    (∀ bp, (mm_malloc s size).2 = some bp →
      ∃ pre c post, findBlock (mm_malloc s size).1 bp = some (pre, c, post) ∧
        c.alloc = true ∧ normSize size + 8 ≤ c.size ∧ size + 8 ≤ c.size) ∧
    ((mm_malloc s size).2 = none →
      extend_heap s (extendSizeOf (asizeOf size) / 4) = none ∧
      (mm_malloc s size).1 = s) := by
  obtain ⟨hle, h16, hguard⟩ := normSize_spec h1 h2
  have hfull := mm_malloc_full hs hguard
  constructor
  · intro bp hbp
    obtain ⟨pre, c, post, hfind, hc, hsz, -⟩ := hfull.2.2.1 bp hbp
    exact ⟨pre, c, post, hfind, hc, hsz, by omega⟩
  · intro hnone
    exact ⟨mm_malloc_none_extend (by omega) hnone, hfull.2.2.2.1 hnone⟩

/-- Claim C1 (witness): the amended theorem applied to the initial heap and
a 100-byte request, which is served at payload address 16. -/
theorem c1_malloc_spec_witness :
    ∃ pre c post, findBlock (mm_malloc iS 100).1 16 = some (pre, c, post) ∧
      c.alloc = true ∧ normSize 100 + 8 ≤ c.size ∧ 100 + 8 ≤ c.size :=
  (c1_malloc_spec inv_iS (by decide) (by decide)).1 16 (by decide)

/-- Claim C2: in every reachable allocator state, after freeing any valid
allocated block and after any successful arena extension, no two physically
adjacent blocks are both free. -/
theorem c2_no_adjacent_free {s : HeapState} (hr : Reachable s) :
    (∀ a pre b post, findBlock s a = some (pre, b, post) → b.alloc = true →
      pre ≠ [] → noAdjFree (mm_free s a).blocks) ∧
    (∀ w t r, 0 < extendBytes w → extend_heap s w = some (t, r) →
      noAdjFree t.blocks) := by
  have hs := reachable_inv hr
  constructor
  · intro a pre b post hfind halloc hne
    exact (mm_free_full hs hfind halloc hne).1.noAdj
  · intro w t r hw hex
    exact (extend_heap_full hs hw hex).1.noAdj

/-- Claim C2 (witness): freeing the block allocated by `mm_malloc iS 16`
leaves no pair of adjacent free blocks. -/
theorem c2_no_adjacent_free_witness :
    noAdjFree (mm_free (mm_malloc iS 16).1 16).blocks :=
  (c2_no_adjacent_free (Reachable.malloc iS 16
    (Reachable.init 100000 iS (by decide) (by decide)) (by decide))).1
    16 [⟨8, true⟩] ⟨24, true⟩ [⟨4072, false⟩] (by decide) (by decide) (by decide)

/-- Claim C3: in every reachable allocator state, a block's payload address
is a member of the free index exactly when its allocated flag is false. -/
theorem c3_index_membership {s : HeapState} (hr : Reachable s) :
    ∀ p ∈ addrBlocks s, (p.1 ∈ s.fl ↔ p.2.alloc = false) :=
  (reachable_inv hr).memIff

/-- Claim C3 (witness): in the state after `mm_malloc iS 16`, the remainder
block at address 40 is free and indexed. -/
theorem c3_index_membership_witness :
    ((40, (⟨4072, false⟩ : Block)).1 ∈ (mm_malloc iS 16).1.fl ↔
      (40, (⟨4072, false⟩ : Block)).2.alloc = false) :=
  c3_index_membership (Reachable.malloc iS 16
    (Reachable.init 100000 iS (by decide) (by decide)) (by decide))
    (40, ⟨4072, false⟩) (by decide)

/-- Claim C4 (counterexample): the heap `cex4` holds a free indexed block at
address 16 of size 2147483648, large enough for a 16-byte requirement, yet
`find_fit` returns the no-match sentinel: the best-fit tracker starts at
2147483648 and only accepts strictly smaller sizes, so a block of size 2^31
or more is never selected even though it is large enough. -/
theorem c4_counterexample :
    16 ∈ cex4.fl ∧ allocAt cex4 16 = false ∧ (16 : Nat) ≤ sizeAt cex4 16 ∧
    find_fit cex4 16 = none :=
  ⟨by decide, by decide, by decide, by decide⟩

/-- Claim C4 (amended): the fit selector returns the first exact-size match,
short-circuiting the scan; absent an exact match it returns the smallest
free block that is strictly larger than the requirement and strictly below
the 2^31 sentinel (so a large-enough block of size at least 2^31 is passed
over, and the sentinel can be returned although one exists); and any block
it returns is free and at least as large as the requirement. -/
theorem c4_find_fit_spec {s : HeapState} (hs : Inv s) (asize : Nat) :
    (∀ l1 r l2, s.fl = l1 ++ r :: l2 → sizeAt s r = asize →
      (∀ x ∈ l1, sizeAt s x ≠ asize) → find_fit s asize = some r) ∧
    ((∀ x ∈ s.fl, sizeAt s x ≠ asize) →
      (find_fit s asize = none → ∀ c ∈ s.fl, asize < sizeAt s c →
        2147483648 ≤ sizeAt s c) ∧
      (∀ r, find_fit s asize = some r → r ∈ s.fl ∧ asize < sizeAt s r ∧
        sizeAt s r < 2147483648 ∧
        ∀ c ∈ s.fl, asize < sizeAt s c → sizeAt s c < 2147483648 →
          sizeAt s r ≤ sizeAt s c)) ∧
    (∀ r, find_fit s asize = some r →
      ∃ pre b post, findBlock s r = some (pre, b, post) ∧ b.alloc = false ∧
        asize ≤ b.size) := by
  refine ⟨fun l1 r l2 hfl hr hne => find_fit_exact_first hfl hr hne, ?_, ?_⟩
  · intro hne
    obtain ⟨hnone, hsome⟩ := find_fit_noexact hne
    constructor
    · intro h c hc hlt
      by_contra hb
      exact hnone h c hc ⟨hlt, by omega⟩
    · intro r hr
      obtain ⟨hin, ⟨hc1, hc2⟩, hmin⟩ := hsome r hr
      exact ⟨hin, hc1, hc2, fun c hc hcc hcs => hmin c hc ⟨hcc, hcs⟩⟩
  · intro r hr
    obtain ⟨hin, hle⟩ := find_fit_sound hr
    obtain ⟨pre, b, post, hfind, hfree, -, -⟩ := hs.fl_block hin
    rw [sizeAt_of_findBlock hfind] at hle
    exact ⟨pre, b, post, hfind, hfree, hle⟩

/-- Claim C4 (witness): on the initial heap the single free block of size
4096 is an exact match for a 4096-byte requirement and is returned first. -/
theorem c4_find_fit_spec_witness :
    find_fit iS 4096 = some 16 :=
  (c4_find_fit_spec inv_iS 4096).1 [] 16 [] (by decide) (by decide) (by decide)

/-- Claim C5 (counterexample): in the heap `s5` the allocated block at 16
has total size 24, exactly the required total `16 + 8` for a 16-byte
request, so it "already satisfies the requirement"; but `mm_realloc` tests
the strict inequality `curr_size > asize`, so it does not return the block
unchanged: it relocates the payload to address 64 and changes the heap. -/
theorem c5_counterexample :
    allocAt s5 16 = true ∧ sizeAt s5 16 = 16 + 8 ∧
    (mm_realloc s5 16 16).2 = some 64 ∧ (mm_realloc s5 16 16).1 ≠ s5 :=
  ⟨by decide, by decide, by decide, by decide⟩

/-- Claim C5 (amended): reallocation keeps the block and leaves the whole
state unchanged only when the current total size strictly exceeds the
required total `size + 8` (computed on `uint32_t`); in that case the same
address is returned with no data movement and no split. -/
theorem c5_realloc_in_place {s : HeapState} {ptr size : Nat}
    {pre post : List Block} {b : Block}
    (hfind : findBlock s ptr = some (pre, b, post))
    (hgt : u32 (size + 8) < b.size) :
    mm_realloc s ptr size = (s, some ptr) := by
  unfold mm_realloc
  rw [hfind]
  dsimp only
  rw [if_pos hgt]

/-- Claim C5 (witness): shrinking the 24-byte block at 16 to an 8-byte
request (required total 16 < 24) returns the same address and leaves the
heap untouched. -/
theorem c5_realloc_in_place_witness :
    mm_realloc s5 16 8 = (s5, some 16) :=
  @c5_realloc_in_place s5 16 8 [⟨8, true⟩] [⟨24, true⟩, ⟨4048, false⟩]
    ⟨24, true⟩ (by decide) (by decide)

/-- Claim C6 (counterexample): in the split case of `place` (block at 16 of
size 4096, request 24) the header store with the allocated portion's size
has index 0 in the operation trace while the free-index removal has index 2:
the removal runs after the header is overwritten, not before as claimed. -/
theorem c6_counterexample :
    placeEvents 16 4096 24 =
      [.putHdr 12 (PACK 24 1), .putFtr 32 (PACK 24 1), .listRem 16,
        .putHdr 36 (PACK 4072 0), .putFtr 4104 (PACK 4072 0), .listIns 40] ∧
    (placeEvents 16 4096 24).indexOf (PlaceEvent.putHdr 12 (PACK 24 1)) <
      (placeEvents 16 4096 24).indexOf (PlaceEvent.listRem 16) :=
  ⟨by decide, by decide⟩

/-- Claim C6 (amended): in the split case of `place`, the trace decomposes
around the single free-index removal: the header (and footer) stores with
the allocated portion's size come strictly before the removal — so the
removal runs while the header already records the allocated size, not the
original one — and the remainder's header store and index insertion come
strictly after the removal. -/
theorem c6_place_order {bp csize asize : Nat} (h : 24 ≤ u32sub csize asize) :
    ∃ l1 l2, placeEvents bp csize asize = l1 ++ PlaceEvent.listRem bp :: l2 ∧
      PlaceEvent.putHdr (bp - 4) (PACK asize 1) ∈ l1 ∧
      PlaceEvent.putHdr (bp + asize - 4) (PACK (u32sub csize asize) 0) ∈ l2 ∧
      PlaceEvent.listIns (bp + asize) ∈ l2 ∧
      PlaceEvent.listRem bp ∉ l1 := by
  refine ⟨[.putHdr (bp - 4) (PACK asize 1), .putFtr (bp + asize - 8) (PACK asize 1)],
    [.putHdr (bp + asize - 4) (PACK (u32sub csize asize) 0),
      .putFtr (bp + csize - 8) (PACK (u32sub csize asize) 0),
      .listIns (bp + asize)], ?_, ?_, ?_, ?_, ?_⟩
  · unfold placeEvents
    rw [if_pos h]
    rfl
  · simp
  · simp
  · simp
  · simp

/-- Claim C6 (witness): the amended ordering at the concrete split
`place`-trace of a 4096-byte block serving a 24-byte requirement. -/
theorem c6_place_order_witness :
    ∃ l1 l2, placeEvents 16 4096 24 = l1 ++ PlaceEvent.listRem 16 :: l2 ∧
      PlaceEvent.putHdr (16 - 4) (PACK 24 1) ∈ l1 ∧
      PlaceEvent.putHdr (16 + 24 - 4) (PACK (u32sub 4096 24) 0) ∈ l2 ∧
      PlaceEvent.listIns (16 + 24) ∈ l2 ∧
      PlaceEvent.listRem 16 ∉ l1 :=
  @c6_place_order 16 4096 24 (by decide)

/-- Claim C7: when the coalescing engine runs on a block whose physical
predecessor is free and whose physical successor is allocated, the result
replaces the predecessor and the block by one free block of the combined
size (on `uint32_t`) in the predecessor's position, the free index is left
completely unchanged (no removal, no insertion — the predecessor stays
indexed), and the predecessor's address is returned. -/
theorem c7_coalesce_prev_free {s : HeapState} {bp : Nat} {pre post : List Block}
    {b prevB : Block}
    (hfind : findBlock s bp = some (pre, b, post))
    (hlast : pre.getLast? = some prevB)
    (hb : b.alloc = false) (hpa : prevB.alloc = false) (hna : headAlloc post = true) :
    coalesce s bp =
      ({ s with blocks := pre.dropLast ++ ⟨u32 (b.size + prevB.size), false⟩ :: post },
        bp - prevB.size) ∧
    (coalesce s bp).1.fl = s.fl ∧ (coalesce s bp).2 = bp - prevB.size := by
  have h := coalesce_case3 hfind hlast hb hpa hna
  exact ⟨h, by rw [h], by rw [h]⟩

/-- Claim C7 (witness): coalescing the just-freed block at 40 in `s7` (free
predecessor at 16, allocated successor at 64) merges into the predecessor,
keeps the index `[16]` unchanged and returns 16. -/
theorem c7_coalesce_prev_free_witness :
    coalesce s7 40 = (⟨[⟨8, true⟩, ⟨48, false⟩, ⟨4048, true⟩], [16], 100000⟩, 16) := by
  have h := @c7_coalesce_prev_free s7 40 [⟨8, true⟩, ⟨24, false⟩] [⟨4048, true⟩]
    ⟨24, false⟩ ⟨24, false⟩ (by decide) (by decide) (by decide) (by decide) (by decide)
  rw [h.1]
  rfl

/-- Claim C8: when `mm_realloc` takes the full-relocation fallback (the
block can neither be kept nor grown in place and the inner `mm_malloc`
succeeds at `np`), the result is exactly "free the old block, return the
new address"; the copied byte count equals `min size curr_size`; and at the
byte level, after copying that many bytes to the new location and then
performing the stores of the free of the old block (header, footer and the
two index link words), every byte `np + i` with `i` below the copy count
holds the original byte `ptr + i` — the first `min size curr_size` payload
bytes are preserved at the returned address. -/
theorem c8_realloc_fallback {s : HeapState} {ptr size : Nat}
    {pre post : List Block} {b : Block} {s1 : HeapState} {np : Nat}
    (hfind : findBlock s ptr = some (pre, b, post))
    (h1 : ¬ u32 (size + 8) < b.size)
    (h2 : ¬ (headAlloc post = false ∧ u32 (size + 8) ≤ u32 (b.size + headSize post)))
    (hmm : mm_malloc s size = (s1, some np)) :
    mm_realloc s ptr size = (mm_free s1 ptr, some np) ∧
    reallocCopySize size b.size = min size b.size ∧
    (∀ mem m hv fv pv nv i, i < reallocCopySize size b.size → 8 ≤ ptr →
      ptr + b.size ≤ np → m + 8 ≤ np →
      freeOldBytes (memcpy mem np ptr (reallocCopySize size b.size)) ptr b.size m
        hv fv pv nv (np + i) = mem (ptr + i)) := by
  refine ⟨?_, ?_, ?_⟩
  · unfold mm_realloc
    rw [hfind]
    dsimp only
    rw [if_neg h1, if_neg h2, hmm]
  · unfold reallocCopySize
    split
    · omega
    · omega
  · intro mem m hv fv pv nv i hi hptr hnp hm
    simp only [freeOldBytes, writeWord, memcpy]
    have e1 : ¬(m + 4 ≤ np + i ∧ np + i < m + 4 + 4) := by omega
    have e2 : ¬(m ≤ np + i ∧ np + i < m + 4) := by omega
    have e3 : ¬(ptr + b.size - 8 ≤ np + i ∧ np + i < ptr + b.size - 8 + 4) := by
      omega
    have e4 : ¬(ptr - 4 ≤ np + i ∧ np + i < ptr - 4 + 4) := by omega
    have e5 : np ≤ np + i ∧ np + i < np + reallocCopySize size b.size := by omega
    rw [if_neg e1, if_neg e2, if_neg e3, if_neg e4, if_pos e5]
    congr 1
    omega

/-- Claim C8 (witness): growing the 24-byte block at 16 in `s5` to a
32-byte request relocates it to 64, copies `min 32 24 = 24` bytes, and byte
`64 + 5` of the final memory holds the original byte `16 + 5`. -/
theorem c8_realloc_fallback_witness :
    mm_realloc s5 16 32 = (mm_free s15 16, some 64) ∧
    reallocCopySize 32 24 = min 32 24 ∧
    freeOldBytes (memcpy (fun j => j + 7) 64 16 (reallocCopySize 32 24)) 16 24 16
      1 2 3 4 (64 + 5) = (fun j => j + 7) (16 + 5) := by
  have h := @c8_realloc_fallback s5 16 32 [⟨8, true⟩] [⟨24, true⟩, ⟨4048, false⟩]
    ⟨24, true⟩ s15 64 (by decide) (by decide) (by decide) (by decide)
  exact ⟨h.1, h.2.1, h.2.2 (fun j => j + 7) 16 1 2 3 4 5 (by decide) (by decide)
    (by decide) (by decide)⟩

/-- Claim C9: a zero-size allocation request returns null and leaves the
state untouched, and freeing the null pointer is a no-op that leaves both
the heap blocks and the free index unchanged. -/
theorem c9_zero_size_and_null_free (s : HeapState) :
    mm_malloc s 0 = (s, none) ∧ mm_free s 0 = s ∧
    (mm_free s 0).blocks = s.blocks ∧ (mm_free s 0).fl = s.fl := by
  have h1 : mm_malloc s 0 = (s, none) := by
    unfold mm_malloc
    rw [if_pos rfl]
  have h2 : mm_free s 0 = s := by
    unfold mm_free
    rw [if_pos rfl]
  exact ⟨h1, h2, by rw [h2], by rw [h2]⟩

/-- Claim C9 (witness): the zero-size and null-free behaviour at the
initial heap. -/
theorem c9_zero_size_and_null_free_witness :
    mm_malloc iS 0 = (iS, none) ∧ mm_free iS 0 = iS ∧
    (mm_free iS 0).blocks = iS.blocks ∧ (mm_free iS 0).fl = iS.fl :=
  c9_zero_size_and_null_free iS

/-- Claim C10: whenever no free block's size equals the requirement and
every strictly larger free block has size at least 2^31, `find_fit` returns
the no-match sentinel — even when the index contains a block large enough
for the request — because the best-fit tracker starts at the sentinel value
2147483648 and never accepts a size that is not strictly below it. -/
theorem c10_sentinel_forces_extension {s : HeapState} {asize : Nat}
    (hne : ∀ x ∈ s.fl, sizeAt s x ≠ asize)
    (hbig : ∀ x ∈ s.fl, asize < sizeAt s x → 2147483648 ≤ sizeAt s x)
    (hex : ∃ x ∈ s.fl, asize ≤ sizeAt s x) :
    find_fit s asize = none ∧ ∃ x ∈ s.fl, asize ≤ sizeAt s x := by
  constructor
  · unfold find_fit
    exact find_fitGo_none_of s.fl hne hbig
  · exact hex

/-- Claim C10 (witness): in `s10` the free block at 40 has size
2147483656 ≥ 24, yet `find_fit` for a 24-byte requirement returns none. -/
theorem c10_sentinel_forces_extension_witness :
    find_fit s10 24 = none ∧ ∃ x ∈ s10.fl, 24 ≤ sizeAt s10 x :=
  c10_sentinel_forces_extension (by decide) (by decide) (by decide)

end MM
